import Mathlib

/-!
Shallow embedding of the order-book reconstruction engine of this repository
(`src/my_package/orderbook.py`, `src/my_package/stream.py`,
`src/my_package/metrics.py`, `src/my_package/tcp_server.py`) together with
proofs about the behaviour of its operations.

Modelling conventions:
* Python `dict`s (which preserve insertion order and have unique keys) are
  modelled as association lists with the update-or-append assignment
  `setA`, first-match lookup `getA` and key removal `popA`.  Key uniqueness
  is part of the well-formedness invariant `WF`.
* Python `float` prices and sizes are modelled as `ℚ`; the code performs
  only comparisons, subtraction and summation on them.
* Log emission (`orderbook_logger.warning` / `orderbook_logger.error`) is
  the code's only error accounting on these paths; handlers therefore
  return, besides the new book state, the number of warning and error log
  records they emit.
* Python raises no exception on any path modelled here (the handlers'
  `try`/`except ValueError` blocks are modelled by `removeCore`'s status
  value); each embedded operation is a total Lean function.
-/

namespace Challenge

/-- An MBO message as consumed by `SingleSymbolBook` / `OrderBook.apply`:
a Python dict with keys `type`, `order_id`, `symbol`, `side`, `price`,
`size`.  The `timestamp` key is never read nor compared separately from the
rest of a stored message by the order-book code, so it is elided. -/
structure Msg where
  type : String
  order_id : String
  symbol : String
  side : String
  price : ℚ
  size : ℚ
deriving DecidableEq, Repr

/-! ### Association lists modelling Python dicts -/

/-- Dict lookup: value of the first entry with the given key. -/
def getA {κ β : Type} [DecidableEq κ] : List (κ × β) → κ → Option β
  | [], _ => none
  | (k', v) :: t, k => if k' = k then some v else getA t k

/-- Dict assignment `d[k] = v`: replace the first entry with key `k`,
or append a new entry when the key is absent. -/
def setA {κ β : Type} [DecidableEq κ] : List (κ × β) → κ → β → List (κ × β)
  | [], k, v => [(k, v)]
  | (k', v') :: t, k, v => if k' = k then (k, v) :: t else (k', v') :: setA t k v

/-- Dict deletion `del d[k]` / `d.pop(k)`: drop the first entry with key `k`. -/
def popA {κ β : Type} [DecidableEq κ] : List (κ × β) → κ → List (κ × β)
  | [], _ => []
  | (k', v') :: t, k => if k' = k then t else (k', v') :: popA t k

/-- The keys of a dict, in insertion order. -/
def keysA {κ β : Type} (l : List (κ × β)) : List κ := l.map Prod.fst

/-- Remove the first element equal to `m` (the effect of Python's
`list.remove(m)` when `m` is present). -/
def eraseFirst {α : Type} [DecidableEq α] : List α → α → List α
  | [], _ => []
  | x :: t, m => if x = m then t else x :: eraseFirst t m

/-- Replace the first element equal to `m` by `m'`, keeping its position.
This models an in-place mutation of a dict object that is shared between
the `_orders` lookup table and a price-level list. -/
def replaceFirst {α : Type} [DecidableEq α] : List α → α → α → List α
  | [], _, _ => []
  | x :: t, m, m' => if x = m then m' :: t else x :: replaceFirst t m m'

/-- The `_orders` dict: `order_id -> message`. -/
abbrev Orders := List (String × Msg)

/-- A price-level dict: `price -> list of orders (FIFO)`. -/
abbrev Levels := List (ℚ × List Msg)

/-- State of `SingleSymbolBook`: `_orders`, `_bids`, `_asks`. -/
structure SSBook where
  symbol : String
  orders : Orders
  bids : Levels
  asks : Levels
deriving DecidableEq, Repr

/-- `SingleSymbolBook.__init__`. -/
def emptyBook (symbol : String) : SSBook := ⟨symbol, [], [], []⟩

/-- `level = self._bids if side == 'bid' else self._asks`. -/
def getSide (b : SSBook) (side : String) : Levels :=
  if side = "bid" then b.bids else b.asks

/-- Writing back the side dict chosen by `getSide`. -/
def setSide (b : SSBook) (side : String) (lv : Levels) : SSBook :=
  if side = "bid" then { b with bids := lv } else { b with asks := lv }

/-- Result of a handler: the new book state, together with the number of
`orderbook_logger.warning` and `orderbook_logger.error` records it emits
(the code's only error accounting; no handler raises). -/
structure HRes where
  book : SSBook
  warns : Nat
  errs : Nat
deriving DecidableEq, Repr

/-- `if price not in level: level[price] = []` followed by
`level[price].append(msg)` (handle_new, lines 54-58). -/
def levelAppendMsg (lv : Levels) (p : ℚ) (m : Msg) : Levels :=
  match getA lv p with
  | none => setA lv p [m]
  | some q => setA lv p (q ++ [m])

/-- `SingleSymbolBook.handle_new` (orderbook.py lines 35-63). -/
def handle_new (b : SSBook) (msg : Msg) : HRes :=
  if (getA b.orders msg.order_id).isSome then
    -- duplicate order id: warning logged, event ignored
    ⟨b, 1, 0⟩
  else
    let orders' := setA b.orders msg.order_id msg
    let lv' := levelAppendMsg (getSide b msg.side) msg.price msg
    ⟨setSide { b with orders := orders' } msg.side lv', 0, 0⟩

/-- Outcome of the `if price in level: try: level[price].remove(...)`
removal block shared by CANCEL / MODIFY / EXECUTE-full-fill. -/
inductive RemStatus where
  | ok        -- removed (and the level deleted if it became empty)
  | noLevel   -- `price in level` was false
  | notFound  -- `list.remove` raised `ValueError` (caught)
deriving DecidableEq, Repr

/-- The removal block: remove the first element of `lv[p]` equal to `m`,
delete the level if it becomes empty; report what happened. -/
def removeCore (lv : Levels) (p : ℚ) (m : Msg) : Levels × RemStatus :=
  match getA lv p with
  | none => (lv, RemStatus.noLevel)
  | some q =>
    if m ∈ q then
      let q' := eraseFirst q m
      (if q' = [] then popA lv p else setA lv p q', RemStatus.ok)
    else (lv, RemStatus.notFound)

/-- `SingleSymbolBook.handle_cancel` (orderbook.py lines 65-106).
Both the missing-level branch and the caught `ValueError` emit an error
log record. -/
def handle_cancel (b : SSBook) (msg : Msg) : HRes :=
  match getA b.orders msg.order_id with
  | none => ⟨b, 1, 0⟩   -- unknown order id: warning, ignored
  | some m =>
    let orders' := popA b.orders msg.order_id
    let (lv', st) := removeCore (getSide b m.side) m.price m
    ⟨setSide { b with orders := orders' } m.side lv',
      0, if st = RemStatus.ok then 0 else 1⟩

/-- The cancel-like removal step shared verbatim by `handle_modify`
(lines 139-149) and reached, after the in-place size write, by
`handle_execute`'s full-fill branch (lines 210-219): pop the id from
`_orders` and run the removal block on the resident's level. -/
def removeResident (b : SSBook) (id : String) (old : Msg) : SSBook × RemStatus :=
  let orders' := popA b.orders id
  let (lv', st) := removeCore (getSide b old.side) old.price old
  (setSide { b with orders := orders' } old.side lv', st)

/-- `SingleSymbolBook.handle_modify` (orderbook.py lines 108-169).
The `old_price is None or old_side is None` branch is dead in this model
(every message record carries all fields), and `msg['size'] = new_size`
is a self-assignment in the source (`new_size = msg['size']`), so it is
the identity here.  Only the caught `ValueError` logs an error; a missing
price level is skipped silently. -/
def handle_modify (b : SSBook) (msg : Msg) : HRes :=
  match getA b.orders msg.order_id with
  | none =>
    -- unknown id: warning logged, then treated as NEW
    let r := handle_new b msg
    ⟨r.book, r.warns + 1, r.errs⟩
  | some old =>
    let (b1, st) := removeResident b msg.order_id old
    let r := handle_new b1 msg
    ⟨r.book, r.warns, r.errs + (if st = RemStatus.notFound then 1 else 0)⟩

/-- `SingleSymbolBook.handle_execute` (orderbook.py lines 172-224).
`passive_order['size'] = new_size` mutates the dict object shared between
`_orders` and its price-level list; here the shared object is the unique
queue element equal to `passive` (unique whenever the book is well
formed), updated by `replaceFirst`. -/
def handle_execute (b : SSBook) (msg : Msg) : HRes :=
  match getA b.orders msg.order_id with
  | none => ⟨b, 1, 0⟩   -- unknown order id: warning, ignored
  | some passive =>
    let s := passive.size
    -- capping: `if exec_size > passive_size: ... exec_size = passive_size`
    let e := if s < msg.size then s else msg.size
    let warns := if s < msg.size then 1 else 0
    let new_size := s - e
    let passive' := { passive with size := new_size }
    -- in-place `passive_order['size'] = new_size`
    let orders1 := setA b.orders msg.order_id passive'
    let lv := getSide b passive.side
    let lv1 :=
      match getA lv passive.price with
      | none => lv
      | some q => setA lv passive.price (replaceFirst q passive passive')
    let b1 := setSide { b with orders := orders1 } passive.side lv1
    if new_size ≤ 0 then
      -- full fill: removed exactly like a cancel, using the mutated object
      let (b2, st) := removeResident b1 msg.order_id passive'
      ⟨b2, warns, if st = RemStatus.notFound then 1 else 0⟩
    else
      ⟨b1, warns, 0⟩

/-- Sum of resident sizes of a level queue. -/
def sumSizes (q : List Msg) : ℚ := (q.map Msg.size).sum

/-- `max` over a nonempty list (Python `max`). -/
def listMax : List ℚ → Option ℚ
  | [] => none
  | x :: t =>
    some (match listMax t with
          | none => x
          | some y => max x y)

/-- `min` over a nonempty list (Python `min`). -/
def listMin : List ℚ → Option ℚ
  | [] => none
  | x :: t =>
    some (match listMin t with
          | none => x
          | some y => min x y)

/-- `SingleSymbolBook.get_bba` (orderbook.py lines 229-251), returning
`(best_bid, best_ask, bid_size, ask_size)`.  The two whole-side size sums
computed at lines 237-238 are dead values (unconditionally overwritten at
lines 241-249) and are omitted. -/
def get_bba (b : SSBook) : ℚ × ℚ × ℚ × ℚ :=
  let best_bid := (listMax (keysA b.bids)).getD 0
  let best_ask := (listMin (keysA b.asks)).getD 0
  let bid_size := if 0 < best_bid then sumSizes ((getA b.bids best_bid).getD []) else 0
  let ask_size := if 0 < best_ask then sumSizes ((getA b.asks best_ask).getD []) else 0
  (best_bid, best_ask, bid_size, ask_size)

/-! ### `OrderBook` aggregate (orderbook.py, class OrderBook) -/

/-- State of `OrderBook`: the `_books` dict `symbol -> SingleSymbolBook`. -/
structure OBState where
  books : List (String × SSBook)
deriving DecidableEq, Repr

/-- Dispatch on `message['type']` (orderbook.py lines 303-313); an unknown
type logs a warning. -/
def dispatch (b : SSBook) (msg : Msg) : HRes :=
  if msg.type = "NEW" then handle_new b msg
  else if msg.type = "CANCEL" then handle_cancel b msg
  else if msg.type = "MODIFY" then handle_modify b msg
  else if msg.type = "EXECUTE" then handle_execute b msg
  else ⟨b, 1, 0⟩

/-- `OrderBook.apply` (orderbook.py lines 285-319).  `not symbol` /
`not msg_type` is Python falsiness of the empty string (a missing key is
impossible for the total message record).  The handlers are total, so the
surrounding `except Exception` branch is dead in this model. -/
def OrderBook.apply (st : OBState) (msg : Msg) : OBState × Nat × Nat :=
  if msg.symbol = "" ∨ msg.type = "" then (st, 0, 1)
  else
    let books1 :=
      match getA st.books msg.symbol with
      | none => setA st.books msg.symbol (emptyBook msg.symbol)
      | some _ => st.books
    let b := (getA books1 msg.symbol).getD (emptyBook msg.symbol)
    let r := dispatch b msg
    (⟨setA books1 msg.symbol r.book⟩, r.warns, r.errs)

/-- One engine step on a single-symbol book: the state part of `dispatch`
(used to express reachability by an event sequence). -/
def step (b : SSBook) (msg : Msg) : SSBook := (dispatch b msg).book

/-- Applying a sequence of events to a single-symbol book. -/
def runEvents (b : SSBook) (evs : List Msg) : SSBook := evs.foldl step b

/-! ### Well-formedness of a single-symbol book -/

/-- Which side dict `level = self._bids if side == 'bid' else self._asks`
selects, as a Boolean. -/
def sideBit (s : String) : Bool := decide (s = "bid")

/-- The side dict selected by a Boolean. -/
def lvOf (b : SSBook) (ib : Bool) : Levels := if ib then b.bids else b.asks

/-- Writing back the side dict selected by a Boolean. -/
def setLv (b : SSBook) (ib : Bool) (lv : Levels) : SSBook :=
  if ib then { b with bids := lv } else { b with asks := lv }

/-- Well-formedness of one side dict against the `_orders` table:
unique price keys, no empty level, no duplicated order id inside a level,
and every queue element carries its level's price, the dict's side, and is
exactly the message stored for its id in `_orders`. -/
def WFSide (o : Orders) (lv : Levels) (ib : Bool) : Prop :=
  (keysA lv).Nodup ∧
  ∀ pq ∈ lv, pq.2 ≠ [] ∧ ((pq.2).map Msg.order_id).Nodup ∧
    ∀ m ∈ pq.2, m.price = pq.1 ∧ sideBit m.side = ib ∧ getA o m.order_id = some m

/-- Well-formedness of a single-symbol book: unique order ids in
`_orders`, both side dicts well formed, and every stored order has
positive size, carries its own id, and sits in the queue of its own
(side, price) level. -/
def WF (b : SSBook) : Prop :=
  (keysA b.orders).Nodup ∧
  (∀ ib : Bool, WFSide b.orders (lvOf b ib) ib) ∧
  ∀ kv ∈ b.orders, kv.2.order_id = kv.1 ∧ 0 < kv.2.size ∧
    ∃ q, getA (lvOf b (sideBit kv.2.side)) kv.2.price = some q ∧ kv.2 ∈ q

/-- Number of orders with the given id inside one level queue. -/
def countIdQ (q : List Msg) (id : String) : Nat :=
  (q.filter (fun m => decide (m.order_id = id))).length

/-- Number of orders with the given id across all queues of a side dict. -/
def sumCounts (lv : Levels) (id : String) : Nat :=
  (lv.map (fun pq => countIdQ pq.2 id)).sum

/-- Number of occurrences of an order id across both sides of the book. -/
def totalCount (b : SSBook) (id : String) : Nat :=
  sumCounts b.bids id + sumCounts b.asks id

/-- The specification invariant: an order id is in the lookup table iff it
occupies exactly one price-level queue across both sides; every resident
order has positive size; no side indexes an empty level. -/
def ClaimInv (b : SSBook) : Prop :=
  (∀ id : String, (getA b.orders id).isSome ↔ totalCount b id = 1) ∧
  (∀ pq ∈ b.bids, pq.2 ≠ [] ∧ ∀ m ∈ pq.2, 0 < m.size) ∧
  (∀ pq ∈ b.asks, pq.2 ≠ [] ∧ ∀ m ∈ pq.2, 0 < m.size)

/-- The sample resident order, execute event and one-order book used by
the C2 witness. -/
def wMsgX : Msg := ⟨"NEW", "X", "S", "bid", 100, 10⟩

def wMsgE : Msg := ⟨"EXECUTE", "X", "S", "bid", 100, 15⟩

def wBookX : SSBook := (handle_new (emptyBook "S") wMsgX).book

/-- The C6 contract of `get_bba`, amended at nonpositive best prices:
best bid is the maximum bid price present (0 when no bid level exists),
best ask the minimum ask price present (0 when none); the reported depth
is the sum of resident sizes at that single best level *when the best
price is strictly positive*, and 0 otherwise (the code's `> 0` guards
conflate a level priced at 0 or below with the empty-side sentinel). -/
def bbaSpec (b : SSBook) : Prop :=
  (b.bids = [] → (get_bba b).1 = 0) ∧
  (b.bids ≠ [] → (get_bba b).1 ∈ keysA b.bids ∧
    ∀ pp ∈ keysA b.bids, pp ≤ (get_bba b).1) ∧
  (0 < (get_bba b).1 → (get_bba b).2.2.1 =
    sumSizes ((getA b.bids (get_bba b).1).getD [])) ∧
  ((get_bba b).1 ≤ 0 → (get_bba b).2.2.1 = 0) ∧
  (b.asks = [] → (get_bba b).2.1 = 0) ∧
  (b.asks ≠ [] → (get_bba b).2.1 ∈ keysA b.asks ∧
    ∀ pp ∈ keysA b.asks, (get_bba b).2.1 ≤ pp) ∧
  (0 < (get_bba b).2.1 → (get_bba b).2.2.2 =
    sumSizes ((getA b.asks (get_bba b).2.1).getD [])) ∧
  ((get_bba b).2.1 ≤ 0 → (get_bba b).2.2.2 = 0)

/-- A per-symbol MBP book: `{"bids": {price: size}, "asks": {price: size}}`. -/
structure LvBook where
  bids : List (ℚ × ℤ)
  asks : List (ℚ × ℤ)
deriving DecidableEq, Repr

/-- `OrderBookReconstructor.books`: `symbol -> LvBook`. -/
abbrev Books := List (String × LvBook)

/-- A parsed level-update event (`MessageParser.parse` output): `price`
is a float, `size` an int. -/
structure LvEvent where
  symbol : String
  side : String
  price : ℚ
  size : ℤ
deriving DecidableEq, Repr

/-- The book stored for a symbol, or a fresh empty one. -/
def getBookD (books : Books) (sym : String) : LvBook :=
  (getA books sym).getD ⟨[], []⟩

/-- `side_key = "bids" if side == "bid" else "asks"`. -/
def sideLevels (bk : LvBook) (side : String) : List (ℚ × ℤ) :=
  if side = "bid" then bk.bids else bk.asks

/-- The per-symbol book after one level update: `pop(price, None)` when
`size <= 0`, else `d[price] = size`, on the side selected by `side_key`. -/
def mkBk (bk : LvBook) (e : LvEvent) : LvBook :=
  if e.side = "bid" then
    { bk with bids := if e.size ≤ 0 then popA bk.bids e.price
                      else setA bk.bids e.price e.size }
  else
    { bk with asks := if e.size ≤ 0 then popA bk.asks e.price
                      else setA bk.asks e.price e.size }

/-- The book-state effect of `OrderBookReconstructor.apply` (stream.py
lines 44-66) at the level of an already-parsed event: ensure the symbol's
book exists, then update the selected side dict.  The latency and
message-count tracking of `apply` touches no book state and is elided. -/
def applyLevel (books : Books) (e : LvEvent) : Books :=
  setA books e.symbol (mkBk (getBookD books e.symbol) e)

/-- The C7 contract: a size-0 update removes the level (absent
afterwards), is a no-op on the symbol's book when the price is absent,
and is idempotent on the whole reconstructor state; a positive update
stores exactly the new size, replacing whatever was there. -/
def levelUpdateSpec (books : Books) (e : LvEvent) : Prop :=
  (e.size = 0 →
    getA (sideLevels (getBookD (applyLevel books e) e.symbol) e.side) e.price = none ∧
    (getA (sideLevels (getBookD books e.symbol) e.side) e.price = none →
      getBookD (applyLevel books e) e.symbol = getBookD books e.symbol) ∧
    applyLevel (applyLevel books e) e = applyLevel books e) ∧
  (0 < e.size →
    getA (sideLevels (getBookD (applyLevel books e) e.symbol) e.side) e.price =
      some e.size)

/-- Python `int()` applied to a float: truncation toward zero. -/
def pyIntTrunc (x : ℚ) : ℤ := if 0 ≤ x then ⌊x⌋ else ⌈x⌉

/-- Python list indexing `l[i]`, including negative indices from the end;
`none` models an `IndexError`. -/
def pyGetIdx (l : List ℚ) (i : ℤ) : Option ℚ :=
  if 0 ≤ i then l.get? i.toNat
  else if 0 ≤ (l.length : ℤ) + i then l.get? ((l.length : ℤ) + i).toNat
  else none

/-- `_percentile(sorted_list, q)`: `None` on an empty list; otherwise
`k_float = (n-1)*q`, `f = int(k_float)`; the last sample when
`f >= n - 1`, else linear interpolation between ranks `f` and `f+1`. -/
def percentile (l : List ℚ) (q : ℚ) : Option ℚ :=
  if l = [] then none
  else
    let n := l.length
    let k := ((n : ℚ) - 1) * q
    let f := pyIntTrunc k
    if (n : ℤ) - 1 ≤ f then some (l.getLastD 0)
    else
      match pyGetIdx l f, pyGetIdx l (f + 1) with
      | some a, some b => some (a + (k - (f : ℚ)) * (b - a))
      | _, _ => none

/-- The C8 contract at `f = ⌊(n-1)q⌋`: last sample when `f ≥ n-1`, else
`sorted[f] + ((n-1)q - f) * (sorted[f+1] - sorted[f])`. -/
def percentileSpec (l : List ℚ) (q : ℚ) : Prop :=
  (l.length - 1 ≤ (⌊((l.length : ℚ) - 1) * q⌋).toNat →
    percentile l q = some (l.getLastD 0)) ∧
  ((⌊((l.length : ℚ) - 1) * q⌋).toNat < l.length - 1 →
    ∃ a b, l.get? (⌊((l.length : ℚ) - 1) * q⌋).toNat = some a ∧
      l.get? ((⌊((l.length : ℚ) - 1) * q⌋).toNat + 1) = some b ∧
      percentile l q = some (a + (((l.length : ℚ) - 1) * q -
        ((⌊((l.length : ℚ) - 1) * q⌋).toNat : ℚ)) * (b - a)))

/-- Server state touched by `broadcast_message`: the `clients` list of
writers (as ids) and the metrics counters. -/
structure SrvSt where
  clients : List Nat
  connected : ℤ
  errors : Nat
  sent : Nat
  bytes : Nat
deriving DecidableEq, Repr

/-- `_send_message` (lines 160-178): on success the message counters grow
(length-prefixed frame of `len + 4` bytes); on a transport failure the
error counter grows and the exception propagates (the `Bool` is `false`).
`fails w` says whether writing to subscriber `w` fails. -/
def sendMessage (fails : Nat → Bool) (len : Nat) (st : SrvSt) (w : Nat) :
    SrvSt × Bool :=
  if fails w then ({ st with errors := st.errors + 1 }, false)
  else ({ st with sent := st.sent + 1, bytes := st.bytes + len + 4 }, true)

/-- The `for writer in self.clients` loop of `broadcast_message`: attempt
every subscriber, collecting the successfully delivered ones and the
`disconnected` list; a failure is caught and never stops the loop. -/
def broadcastLoop (fails : Nat → Bool) (len : Nat) :
    SrvSt → List Nat → SrvSt × List Nat × List Nat
  | st, [] => (st, [], [])
  | st, w :: ws =>
    let r := sendMessage fails len st w
    let rest := broadcastLoop fails len r.1 ws
    (rest.1, (if r.2 then w :: rest.2.1 else rest.2.1),
      (if r.2 then rest.2.2 else w :: rest.2.2))

/-- The clean-up loop: remove each disconnected writer from `clients`
(first occurrence, guarded by membership) and decrement the connected
count. -/
def removeLoop : SrvSt → List Nat → SrvSt
  | st, [] => st
  | st, d :: ds =>
    let st' :=
      if d ∈ st.clients then
        { st with clients := eraseFirst st.clients d,
                  connected := st.connected - 1 }
      else st
    removeLoop st' ds

/-- `broadcast_message`: run the send loop over the current clients, then
remove the disconnected ones.  Returns the final state and the list of
subscribers that received the message, in order. -/
def broadcast_message (fails : Nat → Bool) (len : Nat) (st : SrvSt) :
    SrvSt × List Nat :=
  let r := broadcastLoop fails len st st.clients
  (removeLoop r.1 r.2.2, r.2.1)

/-- The C9 contract: delivery is attempted and completes for exactly the
non-failing subscribers (in order), no exception escapes (the function is
total), and afterwards exactly the failing subscribers have been removed,
the connected count dropping by their number. -/
def broadcastSpec (fails : Nat → Bool) (len : Nat) (st : SrvSt) : Prop :=
  (broadcast_message fails len st).2 = st.clients.filter (fun w => !fails w) ∧
  (broadcast_message fails len st).1.clients =
    st.clients.filter (fun w => !fails w) ∧
  (broadcast_message fails len st).1.connected =
    st.connected - ((st.clients.filter fails).length : ℤ) ∧
  (broadcast_message fails len st).1.errors =
    st.errors + (st.clients.filter fails).length ∧
  (broadcast_message fails len st).1.sent =
    st.sent + (st.clients.filter (fun w => !fails w)).length

section AssocLemmas

variable {κ β : Type} [DecidableEq κ]

@[simp] theorem keysA_nil : keysA ([] : List (κ × β)) = [] := rfl

@[simp] theorem keysA_cons (k : κ) (v : β) (t : List (κ × β)) :
    keysA ((k, v) :: t) = k :: keysA t := rfl

@[simp] theorem getA_nil (k : κ) : getA ([] : List (κ × β)) k = none := rfl

theorem getA_cons (k' : κ) (v : β) (t : List (κ × β)) (k : κ) :
    getA ((k', v) :: t) k = if k' = k then some v else getA t k := rfl

theorem setA_cons (k' : κ) (v' : β) (t : List (κ × β)) (k : κ) (v : β) :
    setA ((k', v') :: t) k v =
      if k' = k then (k, v) :: t else (k', v') :: setA t k v := rfl

theorem popA_cons (k' : κ) (v' : β) (t : List (κ × β)) (k : κ) :
    popA ((k', v') :: t) k = if k' = k then t else (k', v') :: popA t k := rfl

@[simp] theorem getA_setA_self (l : List (κ × β)) (k : κ) (v : β) :
    getA (setA l k v) k = some v := by
  induction l with
  | nil => simp [getA, setA]
  | cons hd t ih =>
    obtain ⟨k', v'⟩ := hd
    by_cases h : k' = k
    · rw [setA_cons, if_pos h, getA_cons, if_pos rfl]
    · rw [setA_cons, if_neg h, getA_cons, if_neg h, ih]

theorem getA_setA_ne (l : List (κ × β)) (k k' : κ) (v : β) (h : k' ≠ k) :
    getA (setA l k v) k' = getA l k' := by
  induction l with
  | nil => rw [setA, getA_cons, if_neg (Ne.symm h), getA_nil]
  | cons hd t ih =>
    obtain ⟨k₀, v₀⟩ := hd
    by_cases h0 : k₀ = k
    · subst h0
      rw [setA_cons, if_pos rfl, getA_cons, if_neg (Ne.symm h), getA_cons,
        if_neg (Ne.symm h)]
    · rw [setA_cons, if_neg h0, getA_cons, getA_cons, ih]

theorem getA_popA_ne (l : List (κ × β)) (k k' : κ) (h : k' ≠ k) :
    getA (popA l k) k' = getA l k' := by
  induction l with
  | nil => rfl
  | cons hd t ih =>
    obtain ⟨k₀, v₀⟩ := hd
    by_cases h0 : k₀ = k
    · rw [popA_cons, if_pos h0, getA_cons, if_neg (fun hk : k₀ = k' => h (hk ▸ h0 ▸ rfl))]
    · rw [popA_cons, if_neg h0, getA_cons, getA_cons, ih]

theorem getA_eq_none_iff (l : List (κ × β)) (k : κ) :
    getA l k = none ↔ k ∉ keysA l := by
  induction l with
  | nil => simp
  | cons hd t ih =>
    obtain ⟨k₀, v₀⟩ := hd
    by_cases h0 : k₀ = k
    · subst h0
      simp [getA_cons]
    · rw [getA_cons, if_neg h0, keysA_cons, ih]
      have hk : k ≠ k₀ := fun h => h0 h.symm
      simp [List.mem_cons, hk]

theorem getA_isSome_iff (l : List (κ × β)) (k : κ) :
    (getA l k).isSome ↔ k ∈ keysA l := by
  rcases h : getA l k with _ | v
  · simp [(getA_eq_none_iff l k).1 h]
  · simp only [Option.isSome_some, true_iff]
    induction l with
    | nil => simp [getA] at h
    | cons hd t ih =>
      obtain ⟨k₀, v₀⟩ := hd
      by_cases h0 : k₀ = k
      · simp [h0]
      · rw [getA_cons, if_neg h0] at h
        exact List.mem_cons_of_mem _ (ih h)

theorem getA_mem {l : List (κ × β)} {k : κ} {v : β} (h : getA l k = some v) :
    (k, v) ∈ l := by
  induction l with
  | nil => simp [getA] at h
  | cons hd t ih =>
    obtain ⟨k₀, v₀⟩ := hd
    by_cases h0 : k₀ = k
    · subst h0
      rw [getA_cons, if_pos rfl] at h
      simp at h
      simp [h]
    · rw [getA_cons, if_neg h0] at h
      exact List.mem_cons_of_mem _ (ih h)

theorem mem_keysA_of_getA {l : List (κ × β)} {k : κ} {v : β}
    (h : getA l k = some v) : k ∈ keysA l :=
  (getA_isSome_iff l k).1 (by simp [h])

theorem getA_popA_self (l : List (κ × β)) (k : κ) (h : (keysA l).Nodup) :
    getA (popA l k) k = none := by
  induction l with
  | nil => rfl
  | cons hd t ih =>
    obtain ⟨k₀, v₀⟩ := hd
    rw [keysA_cons, List.nodup_cons] at h
    by_cases h0 : k₀ = k
    · subst h0
      rw [popA_cons, if_pos rfl]
      exact (getA_eq_none_iff t k₀).2 h.1
    · rw [popA_cons, if_neg h0, getA_cons, if_neg h0, ih h.2]

theorem setA_of_not_mem {l : List (κ × β)} {k : κ} (v : β) (h : k ∉ keysA l) :
    setA l k v = l ++ [(k, v)] := by
  induction l with
  | nil => rfl
  | cons hd t ih =>
    obtain ⟨k₀, v₀⟩ := hd
    rw [keysA_cons, List.mem_cons] at h
    push_neg at h
    rw [setA_cons, if_neg (fun hk => h.1 hk.symm), ih h.2, List.cons_append]

theorem popA_of_not_mem {l : List (κ × β)} {k : κ} (h : k ∉ keysA l) :
    popA l k = l := by
  induction l with
  | nil => rfl
  | cons hd t ih =>
    obtain ⟨k₀, v₀⟩ := hd
    rw [keysA_cons, List.mem_cons] at h
    push_neg at h
    rw [popA_cons, if_neg (fun hk => h.1 hk.symm), ih h.2]

theorem setA_self {l : List (κ × β)} {k : κ} {v : β} (h : getA l k = some v) :
    setA l k v = l := by
  induction l with
  | nil => simp [getA] at h
  | cons hd t ih =>
    obtain ⟨k₀, v₀⟩ := hd
    by_cases h0 : k₀ = k
    · subst h0
      rw [getA_cons, if_pos rfl] at h
      simp at h
      rw [setA_cons, if_pos rfl, h]
    · rw [getA_cons, if_neg h0] at h
      rw [setA_cons, if_neg h0, ih h]

theorem popA_setA_self (l : List (κ × β)) (k : κ) (v : β) :
    popA (setA l k v) k = popA l k := by
  induction l with
  | nil => simp [setA, popA]
  | cons hd t ih =>
    obtain ⟨k₀, v₀⟩ := hd
    by_cases h0 : k₀ = k
    · rw [setA_cons, if_pos h0, popA_cons, if_pos rfl, popA_cons, if_pos h0]
    · rw [setA_cons, if_neg h0, popA_cons, if_neg h0, popA_cons, if_neg h0, ih]

theorem setA_setA (l : List (κ × β)) (k : κ) (v w : β) :
    setA (setA l k v) k w = setA l k w := by
  induction l with
  | nil => simp [setA]
  | cons hd t ih =>
    obtain ⟨k₀, v₀⟩ := hd
    by_cases h0 : k₀ = k
    · rw [setA_cons, if_pos h0, setA_cons, if_pos rfl, setA_cons, if_pos h0]
    · rw [setA_cons, if_neg h0, setA_cons, if_neg h0, setA_cons, if_neg h0, ih]

theorem mem_keysA_setA {l : List (κ × β)} {k k' : κ} {v : β}
    (h : k' ∈ keysA (setA l k v)) : k' ∈ keysA l ∨ k' = k := by
  induction l with
  | nil => simp [setA] at h; right; exact h
  | cons hd t ih =>
    obtain ⟨k₀, v₀⟩ := hd
    by_cases h0 : k₀ = k
    · rw [setA_cons, if_pos h0, keysA_cons] at h
      rw [List.mem_cons] at h
      rcases h with h | h
      · right; exact h
      · left; rw [keysA_cons]; exact List.mem_cons_of_mem _ h
    · rw [setA_cons, if_neg h0, keysA_cons, List.mem_cons] at h
      rcases h with h | h
      · left; rw [keysA_cons]; exact h ▸ List.mem_cons_self _ _
      · rcases ih h with h' | h'
        · left; rw [keysA_cons]; exact List.mem_cons_of_mem _ h'
        · right; exact h'

theorem keysA_setA_nodup {l : List (κ × β)} {k : κ} (v : β)
    (h : (keysA l).Nodup) : (keysA (setA l k v)).Nodup := by
  induction l with
  | nil => simp [setA]
  | cons hd t ih =>
    obtain ⟨k₀, v₀⟩ := hd
    rw [keysA_cons, List.nodup_cons] at h
    by_cases h0 : k₀ = k
    · subst h0
      rw [setA_cons, if_pos rfl, keysA_cons, List.nodup_cons]
      exact h
    · rw [setA_cons, if_neg h0, keysA_cons, List.nodup_cons]
      refine ⟨?_, ih h.2⟩
      intro hc
      rcases mem_keysA_setA hc with h' | h'
      · exact h.1 h'
      · exact h0 h'

theorem keysA_popA_sublist (l : List (κ × β)) (k : κ) :
    List.Sublist (keysA (popA l k)) (keysA l) := by
  induction l with
  | nil => simp [popA]
  | cons hd t ih =>
    obtain ⟨k₀, v₀⟩ := hd
    by_cases h0 : k₀ = k
    · rw [popA_cons, if_pos h0, keysA_cons]
      exact List.sublist_cons_self _ _
    · rw [popA_cons, if_neg h0, keysA_cons, keysA_cons]
      exact List.Sublist.cons₂ _ ih

theorem keysA_popA_nodup {l : List (κ × β)} {k : κ}
    (h : (keysA l).Nodup) : (keysA (popA l k)).Nodup :=
  List.Nodup.sublist (keysA_popA_sublist l k) h

theorem mem_popA_nodup {l : List (κ × β)} {k : κ} {x : κ × β}
    (hnd : (keysA l).Nodup) (h : x ∈ popA l k) : x ∈ l ∧ x.1 ≠ k := by
  induction l with
  | nil => simp [popA] at h
  | cons hd t ih =>
    obtain ⟨k₀, v₀⟩ := hd
    rw [keysA_cons, List.nodup_cons] at hnd
    by_cases h0 : k₀ = k
    · subst h0
      rw [popA_cons, if_pos rfl] at h
      refine ⟨List.mem_cons_of_mem _ h, ?_⟩
      intro hx
      exact hnd.1 (hx ▸ List.mem_map_of_mem Prod.fst h)
    · rw [popA_cons, if_neg h0, List.mem_cons] at h
      rcases h with h | h
      · exact ⟨by simp [h], by simp [h, h0]⟩
      · obtain ⟨h1, h2⟩ := ih hnd.2 h
        exact ⟨List.mem_cons_of_mem _ h1, h2⟩

theorem mem_setA_nodup {l : List (κ × β)} {k : κ} {v : β} {x : κ × β}
    (hnd : (keysA l).Nodup) (h : x ∈ setA l k v) :
    (x ∈ l ∧ x.1 ≠ k) ∨ x = (k, v) := by
  induction l with
  | nil => simp [setA] at h; right; exact h
  | cons hd t ih =>
    obtain ⟨k₀, v₀⟩ := hd
    rw [keysA_cons, List.nodup_cons] at hnd
    by_cases h0 : k₀ = k
    · subst h0
      rw [setA_cons, if_pos rfl, List.mem_cons] at h
      rcases h with h | h
      · right; exact h
      · left
        refine ⟨List.mem_cons_of_mem _ h, ?_⟩
        intro hx
        exact hnd.1 (hx ▸ List.mem_map_of_mem Prod.fst h)
    · rw [setA_cons, if_neg h0, List.mem_cons] at h
      rcases h with h | h
      · left; exact ⟨by simp [h], by simp [h, h0]⟩
      · rcases ih hnd.2 h with ⟨h1, h2⟩ | h1
        · left; exact ⟨List.mem_cons_of_mem _ h1, h2⟩
        · right; exact h1

theorem mem_getA_of_nodup {l : List (κ × β)} {k : κ} {v : β}
    (hnd : (keysA l).Nodup) (h : (k, v) ∈ l) : getA l k = some v := by
  induction l with
  | nil => simp at h
  | cons hd t ih =>
    obtain ⟨k₀, v₀⟩ := hd
    rw [keysA_cons, List.nodup_cons] at hnd
    rw [List.mem_cons] at h
    rcases h with h | h
    · rw [Prod.mk.injEq] at h
      rw [getA_cons, if_pos h.1.symm, h.2]
    · have hk : k₀ ≠ k := by
        intro he
        exact hnd.1 (he ▸ List.mem_map_of_mem Prod.fst h)
      rw [getA_cons, if_neg hk, ih hnd.2 h]

end AssocLemmas

/-! ### First-occurrence list surgery (Python `list.remove` and aliased update) -/

section EraseReplace

variable {α : Type} [DecidableEq α]

theorem eraseFirst_sublist (l : List α) (m : α) :
    List.Sublist (eraseFirst l m) l := by
  induction l with
  | nil => simp [eraseFirst]
  | cons x t ih =>
    by_cases h : x = m
    · rw [eraseFirst, if_pos h]
      exact List.sublist_cons_self _ _
    · rw [eraseFirst, if_neg h]
      exact List.Sublist.cons₂ _ ih

theorem mem_eraseFirst {l : List α} {m x : α} (h : x ∈ eraseFirst l m) :
    x ∈ l :=
  (eraseFirst_sublist l m).mem h

theorem mem_eraseFirst_of_ne {l : List α} {m x : α} (hx : x ∈ l) (hne : x ≠ m) :
    x ∈ eraseFirst l m := by
  induction l with
  | nil => simp at hx
  | cons y t ih =>
    rw [List.mem_cons] at hx
    by_cases h : y = m
    · rw [eraseFirst, if_pos h]
      rcases hx with hx | hx
      · exact absurd (hx ▸ h) hne
      · exact hx
    · rw [eraseFirst, if_neg h, List.mem_cons]
      rcases hx with hx | hx
      · left; exact hx
      · right; exact ih hx

theorem eraseFirst_append_of_forall_ne {l₁ l₂ : List α} {m : α}
    (h : ∀ x ∈ l₁, x ≠ m) :
    eraseFirst (l₁ ++ m :: l₂) m = l₁ ++ l₂ := by
  induction l₁ with
  | nil => simp [eraseFirst]
  | cons x t ih =>
    rw [List.cons_append, eraseFirst, if_neg (h x (List.mem_cons_self x t)),
      ih (fun y hy => h y (List.mem_cons_of_mem _ hy)), List.cons_append]

theorem replaceFirst_append_of_forall_ne {l₁ l₂ : List α} {m m' : α}
    (h : ∀ x ∈ l₁, x ≠ m) :
    replaceFirst (l₁ ++ m :: l₂) m m' = l₁ ++ m' :: l₂ := by
  induction l₁ with
  | nil => simp [replaceFirst]
  | cons x t ih =>
    rw [List.cons_append, replaceFirst, if_neg (h x (List.mem_cons_self x t)),
      ih (fun y hy => h y (List.mem_cons_of_mem _ hy)), List.cons_append]

theorem eraseFirst_of_not_mem {l : List α} {m : α} (h : m ∉ l) :
    eraseFirst l m = l := by
  induction l with
  | nil => rfl
  | cons x t ih =>
    rw [List.mem_cons] at h
    push_neg at h
    rw [eraseFirst, if_neg (fun hx => h.1 hx.symm), ih h.2]

theorem replaceFirst_of_not_mem {l : List α} {m m' : α} (h : m ∉ l) :
    replaceFirst l m m' = l := by
  induction l with
  | nil => rfl
  | cons x t ih =>
    rw [List.mem_cons] at h
    push_neg at h
    rw [replaceFirst, if_neg (fun hx => h.1 hx.symm), ih h.2]

theorem mem_replaceFirst {l : List α} {m m' x : α}
    (h : x ∈ replaceFirst l m m') : x ∈ l ∨ x = m' := by
  induction l with
  | nil => simp [replaceFirst] at h
  | cons y t ih =>
    by_cases h0 : y = m
    · rw [replaceFirst, if_pos h0, List.mem_cons] at h
      rcases h with h | h
      · right; exact h
      · left; exact List.mem_cons_of_mem _ h
    · rw [replaceFirst, if_neg h0, List.mem_cons] at h
      rcases h with h | h
      · left; exact h ▸ List.mem_cons_self _ _
      · rcases ih h with h' | h'
        · left; exact List.mem_cons_of_mem _ h'
        · right; exact h'

theorem mem_replaceFirst_of_ne {l : List α} {m m' x : α}
    (hx : x ∈ l) (hne : x ≠ m) : x ∈ replaceFirst l m m' := by
  induction l with
  | nil => simp at hx
  | cons y t ih =>
    rw [List.mem_cons] at hx
    by_cases h0 : y = m
    · rw [replaceFirst, if_pos h0, List.mem_cons]
      rcases hx with hx | hx
      · exact absurd (hx ▸ h0) hne
      · right; exact hx
    · rw [replaceFirst, if_neg h0, List.mem_cons]
      rcases hx with hx | hx
      · left; exact hx
      · right; exact ih hx

theorem replaceFirst_ne_nil {l : List α} {m m' : α} (h : l ≠ []) :
    replaceFirst l m m' ≠ [] := by
  cases l with
  | nil => exact absurd rfl h
  | cons y t =>
    by_cases h0 : y = m
    · rw [replaceFirst, if_pos h0]
      simp
    · rw [replaceFirst, if_neg h0]
      simp

theorem map_replaceFirst_eq {β : Type} (f : α → β) {l : List α} {m m' : α}
    (h : f m' = f m) : (replaceFirst l m m').map f = l.map f := by
  induction l with
  | nil => rfl
  | cons y t ih =>
    by_cases h0 : y = m
    · rw [replaceFirst, if_pos h0, List.map_cons, List.map_cons, h, h0]
    · rw [replaceFirst, if_neg h0, List.map_cons, List.map_cons, ih]

/-- First-occurrence decomposition: a member of a list splits it at its
first occurrence. -/
theorem exists_first_occurrence {l : List α} {m : α} (h : m ∈ l) :
    ∃ l₁ l₂, l = l₁ ++ m :: l₂ ∧ ∀ x ∈ l₁, x ≠ m := by
  induction l with
  | nil => simp at h
  | cons y t ih =>
    by_cases h0 : y = m
    · exact ⟨[], t, by rw [h0, List.nil_append], by simp⟩
    · rw [List.mem_cons] at h
      rcases h with h | h
      · exact absurd h.symm h0
      · obtain ⟨l₁, l₂, heq, hne⟩ := ih h
        refine ⟨y :: l₁, l₂, by rw [heq, List.cons_append], ?_⟩
        intro x hx
        rw [List.mem_cons] at hx
        rcases hx with hx | hx
        · exact hx ▸ h0
        · exact hne x hx

end EraseReplace

/-! ### `SingleSymbolBook` (orderbook.py, class SingleSymbolBook) -/

theorem getSide_eq (b : SSBook) (s : String) : getSide b s = lvOf b (sideBit s) := by
  by_cases h : s = "bid" <;> simp [getSide, lvOf, sideBit, h]

theorem setSide_eq (b : SSBook) (s : String) (lv : Levels) :
    setSide b s lv = setLv b (sideBit s) lv := by
  by_cases h : s = "bid" <;> simp [setSide, setLv, sideBit, h]

@[simp] theorem lvOf_setLv_same (b : SSBook) (ib : Bool) (lv : Levels) :
    lvOf (setLv b ib lv) ib = lv := by
  cases ib <;> simp [lvOf, setLv]

theorem lvOf_setLv_other (b : SSBook) {ib ib' : Bool} (h : ib' ≠ ib) (lv : Levels) :
    lvOf (setLv b ib lv) ib' = lvOf b ib' := by
  cases ib <;> cases ib' <;> simp_all [lvOf, setLv]

@[simp] theorem orders_setLv (b : SSBook) (ib : Bool) (lv : Levels) :
    (setLv b ib lv).orders = b.orders := by
  cases ib <;> simp [setLv]

@[simp] theorem symbol_setLv (b : SSBook) (ib : Bool) (lv : Levels) :
    (setLv b ib lv).symbol = b.symbol := by
  cases ib <;> simp [setLv]

theorem lvOf_mk_orders (b : SSBook) (o : Orders) (ib : Bool) :
    lvOf { b with orders := o } ib = lvOf b ib := by
  cases ib <;> simp [lvOf]

theorem wf_empty (s : String) : WF (emptyBook s) := by
  refine ⟨by simp [emptyBook], fun ib => ⟨by cases ib <;> simp [emptyBook, lvOf], ?_⟩, ?_⟩
  · intro pq hpq
    cases ib <;> simp [emptyBook, lvOf] at hpq
  · intro kv hkv
    simp [emptyBook] at hkv

/-- In a well-formed book, an id absent from `_orders` heads no queue
element. -/
theorem wf_fresh_not_in_queue {b : SSBook} (hwf : WF b) {id : String}
    (hid : getA b.orders id = none) {ib : Bool} {pq : ℚ × List Msg}
    (hpq : pq ∈ lvOf b ib) {x : Msg} (hx : x ∈ pq.2) : x.order_id ≠ id := by
  intro he
  have h := ((hwf.2.1 ib).2 pq hpq).2.2 x hx
  rw [he, hid] at h
  exact Option.noConfusion h.2.2

/-! ### NEW preserves well-formedness -/

theorem getA_levelAppendMsg_self (lv : Levels) (p : ℚ) (m : Msg) :
    getA (levelAppendMsg lv p m) p = some ((getA lv p).getD [] ++ [m]) := by
  unfold levelAppendMsg
  rcases h : getA lv p with _ | q
  · simp
  · simp

theorem getA_levelAppendMsg_ne (lv : Levels) (p p' : ℚ) (m : Msg) (h : p' ≠ p) :
    getA (levelAppendMsg lv p m) p' = getA lv p' := by
  unfold levelAppendMsg
  rcases getA lv p with _ | q
  · exact getA_setA_ne lv p p' [m] h
  · exact getA_setA_ne lv p p' (q ++ [m]) h

theorem keysA_levelAppendMsg_nodup {lv : Levels} (p : ℚ) (m : Msg)
    (h : (keysA lv).Nodup) : (keysA (levelAppendMsg lv p m)).Nodup := by
  unfold levelAppendMsg
  rcases getA lv p with _ | q
  · exact keysA_setA_nodup _ h
  · exact keysA_setA_nodup _ h

theorem mem_levelAppendMsg {lv : Levels} {p : ℚ} {m : Msg} {pq : ℚ × List Msg}
    (hnd : (keysA lv).Nodup) (h : pq ∈ levelAppendMsg lv p m) :
    (pq ∈ lv ∧ pq.1 ≠ p) ∨ pq = (p, (getA lv p).getD [] ++ [m]) := by
  unfold levelAppendMsg at h
  rcases hq : getA lv p with _ | q <;> rw [hq] at h
  · rcases mem_setA_nodup hnd h with h' | h'
    · left; exact h'
    · right; simpa using h'
  · rcases mem_setA_nodup hnd h with h' | h'
    · left; exact h'
    · right; simpa [hq] using h'

/-- The book produced by `handle_new` on a fresh order id. -/
theorem handle_new_book_of_fresh {b : SSBook} {msg : Msg}
    (h : getA b.orders msg.order_id = none) :
    (handle_new b msg) =
      ⟨setLv { b with orders := setA b.orders msg.order_id msg }
        (sideBit msg.side)
        (levelAppendMsg (lvOf b (sideBit msg.side)) msg.price msg), 0, 0⟩ := by
  unfold handle_new
  rw [if_neg (by simp [h])]
  simp only [setSide_eq, getSide_eq]

/-- The result of `handle_new` on a duplicate order id. -/
theorem handle_new_of_dup {b : SSBook} {msg : Msg}
    (h : (getA b.orders msg.order_id).isSome) :
    handle_new b msg = ⟨b, 1, 0⟩ := by
  unfold handle_new
  rw [if_pos h]

/-- Inserting a fresh order with positive size preserves well-formedness. -/
theorem wf_insert {b : SSBook} {msg : Msg} (hwf : WF b) (hs : 0 < msg.size)
    (hdup : getA b.orders msg.order_id = none) :
    WF (setLv { b with orders := setA b.orders msg.order_id msg }
        (sideBit msg.side)
        (levelAppendMsg (lvOf b (sideBit msg.side)) msg.price msg)) := by
  obtain ⟨hnd, hsides, hentries⟩ := hwf
  have hwf' : WF b := ⟨hnd, hsides, hentries⟩
  set ibm := sideBit msg.side with hibm
  set lv := lvOf b ibm with hlv
  set q0 := (getA lv msg.price).getD [] with hq0
  set o' := setA b.orders msg.order_id msg with ho'
  set lv' := levelAppendMsg lv msg.price msg with hlvp
  set b' := setLv { b with orders := o' } ibm lv' with hb'
  have horders : b'.orders = o' := by rw [hb']; simp
  have hlvsame : lvOf b' ibm = lv' := by rw [hb']; simp
  have hlvother : ∀ ib, ib ≠ ibm → lvOf b' ib = lvOf b ib := by
    intro ib hib
    rw [hb', lvOf_setLv_other _ hib, lvOf_mk_orders]
  have hq0elem : ∀ x ∈ q0, x.price = msg.price ∧ sideBit x.side = ibm ∧
      getA b.orders x.order_id = some x := by
    intro x hx
    rcases hq : getA lv msg.price with _ | q
    · rw [hq0, hq] at hx
      simp at hx
    · rw [hq0, hq] at hx
      simp at hx
      exact ((hsides ibm).2 (msg.price, q) (getA_mem hq)).2.2 x hx
  have hq0fresh : ∀ x ∈ q0, x.order_id ≠ msg.order_id := by
    intro x hx he
    have h3 := (hq0elem x hx).2.2
    rw [he, hdup] at h3
    exact Option.noConfusion h3
  refine ⟨?_, ?_, ?_⟩
  · rw [horders, ho']
    exact keysA_setA_nodup _ hnd
  · intro ib
    by_cases hib : ib = ibm
    · subst hib
      rw [hlvsame, horders, hlvp]
      refine ⟨keysA_levelAppendMsg_nodup _ _ (hsides ibm).1, ?_⟩
      intro pq hpq
      rcases mem_levelAppendMsg (hsides ibm).1 hpq with ⟨hmem, hne⟩ | heq
      · obtain ⟨hne', hnd', helem⟩ := (hsides ibm).2 pq hmem
        refine ⟨hne', hnd', ?_⟩
        intro x hx
        obtain ⟨h1, h2, h3⟩ := helem x hx
        refine ⟨h1, h2, ?_⟩
        rw [ho',
          getA_setA_ne _ _ _ _ (wf_fresh_not_in_queue hwf' hdup hmem hx), h3]
      · subst heq
        refine ⟨by simp, ?_, ?_⟩
        · simp only [List.map_append, List.map_cons, List.map_nil]
          rw [List.nodup_append]
          refine ⟨?_, by simp, ?_⟩
          · rcases hq : getA lv msg.price with _ | q
            · simp
            · simp only [Option.getD_some]
              exact ((hsides ibm).2 (msg.price, q) (getA_mem hq)).2.1
          · intro a ha hb
            simp only [List.mem_singleton] at hb
            rw [List.mem_map] at ha
            obtain ⟨x, hx, hxa⟩ := ha
            exact hq0fresh x hx (by rw [hxa, hb])
        · intro x hx
          simp only [List.mem_append, List.mem_singleton] at hx
          rcases hx with hx | hx
          · obtain ⟨h1, h2, h3⟩ := hq0elem x hx
            refine ⟨by simpa using h1, h2, ?_⟩
            rw [ho', getA_setA_ne _ _ _ _ (hq0fresh x hx), h3]
          · subst hx
            refine ⟨by simp, rfl, ?_⟩
            rw [ho', getA_setA_self]
    · rw [hlvother ib hib, horders]
      refine ⟨(hsides ib).1, ?_⟩
      intro pq hpq
      obtain ⟨hne', hnd', helem⟩ := (hsides ib).2 pq hpq
      refine ⟨hne', hnd', ?_⟩
      intro x hx
      obtain ⟨h1, h2, h3⟩ := helem x hx
      refine ⟨h1, h2, ?_⟩
      rw [ho',
        getA_setA_ne _ _ _ _ (wf_fresh_not_in_queue hwf' hdup hpq hx), h3]
  · intro kv hkv
    rw [horders, ho'] at hkv
    rcases mem_setA_nodup hnd hkv with ⟨hmem, hne⟩ | heq
    · obtain ⟨h1, h2, q, hq, hmq⟩ := hentries kv hmem
      refine ⟨h1, h2, ?_⟩
      by_cases hib : sideBit kv.2.side = ibm
      · rw [hib, hlvsame, hlvp]
        by_cases hp : kv.2.price = msg.price
        · refine ⟨q0 ++ [msg], ?_, ?_⟩
          · rw [hp, getA_levelAppendMsg_self, hq0]
          · rw [List.mem_append]
            left
            rw [hq0, hlv, ← hp, ← hib, hq]
            simpa using hmq
        · refine ⟨q, ?_, hmq⟩
          rw [getA_levelAppendMsg_ne _ _ _ _ hp, hlv, ← hib]
          exact hq
      · rw [hlvother _ hib]
        exact ⟨q, hq, hmq⟩
    · subst heq
      refine ⟨rfl, hs, ?_⟩
      show ∃ q, getA (lvOf b' ibm) msg.price = some q ∧ msg ∈ q
      rw [hlvsame, hlvp]
      refine ⟨q0 ++ [msg], ?_, by simp⟩
      rw [getA_levelAppendMsg_self, hq0]

theorem wf_new {b : SSBook} {msg : Msg} (hwf : WF b) (hs : 0 < msg.size) :
    WF (handle_new b msg).book := by
  rcases hdup : getA b.orders msg.order_id with _ | m₀
  · rw [handle_new_book_of_fresh hdup]
    exact wf_insert hwf hs hdup
  · rw [handle_new_of_dup (by simp [hdup])]
    exact hwf

/-! ### Removal of a resident order preserves well-formedness -/

/-- In a queue without duplicated order ids, everything surviving the
removal of `m` carries an id different from `m`'s. -/
theorem nodup_ids_eraseFirst_ne {q : List Msg} {m : Msg}
    (hnd : (q.map Msg.order_id).Nodup) (hm : m ∈ q) :
    ∀ x ∈ eraseFirst q m, x.order_id ≠ m.order_id := by
  obtain ⟨l₁, l₂, rfl, hne⟩ := exists_first_occurrence hm
  rw [eraseFirst_append_of_forall_ne hne]
  rw [List.map_append, List.map_cons, List.nodup_append] at hnd
  obtain ⟨hnd1, hnd2, hdisj⟩ := hnd
  rw [List.nodup_cons] at hnd2
  intro x hx he
  rw [List.mem_append] at hx
  rcases hx with hx | hx
  · exact hdisj (he ▸ List.mem_map_of_mem Msg.order_id hx)
      (List.mem_cons_self _ _)
  · exact hnd2.1 (he ▸ List.mem_map_of_mem Msg.order_id hx)

/-- What `removeResident` computes on a well-formed book holding the
resident order: the `_orders` entry is popped, the queue loses exactly the
first occurrence of the order, the level is deleted when it empties, and
the removal block reports success. -/
theorem removeResident_spec {b : SSBook} {id : String} {m : Msg}
    (hwf : WF b) (h : getA b.orders id = some m) :
    ∃ q, getA (lvOf b (sideBit m.side)) m.price = some q ∧ m ∈ q ∧
      (removeResident b id m).2 = RemStatus.ok ∧
      (removeResident b id m).1 =
        setLv { b with orders := popA b.orders id } (sideBit m.side)
          (if eraseFirst q m = [] then popA (lvOf b (sideBit m.side)) m.price
           else setA (lvOf b (sideBit m.side)) m.price (eraseFirst q m)) := by
  obtain ⟨hnd, hsides, hentries⟩ := hwf
  obtain ⟨h1, h2, q, hq, hmq⟩ := hentries (id, m) (getA_mem h)
  have hmq' : m ∈ q := hmq
  refine ⟨q, hq, hmq, ?_, ?_⟩
  · unfold removeResident removeCore
    rw [getSide_eq, hq]
    dsimp only
    rw [if_pos hmq']
  · unfold removeResident removeCore
    rw [getSide_eq, hq]
    dsimp only
    rw [if_pos hmq', setSide_eq]

theorem wf_removeResident {b : SSBook} {id : String} {m : Msg}
    (hwf : WF b) (h : getA b.orders id = some m) :
    WF (removeResident b id m).1 := by
  obtain ⟨q, hq, hmq, hst, hbook⟩ := removeResident_spec hwf h
  obtain ⟨hnd, hsides, hentries⟩ := hwf
  obtain ⟨hid0, hsz0, -⟩ := hentries (id, m) (getA_mem h)
  have hid : m.order_id = id := hid0
  have hqnodup : (q.map Msg.order_id).Nodup :=
    ((hsides (sideBit m.side)).2 (m.price, q) (getA_mem hq)).2.1
  have herase : ∀ x ∈ eraseFirst q m, x.order_id ≠ id := by
    intro x hx he
    exact nodup_ids_eraseFirst_ne hqnodup hmq x hx (he.trans hid.symm)
  have hqelem := ((hsides (sideBit m.side)).2 (m.price, q) (getA_mem hq)).2.2
  -- lookups of ids other than the removed one are unchanged
  have hlook : ∀ x : Msg, x.order_id ≠ id →
      getA (popA b.orders id) x.order_id = getA b.orders x.order_id :=
    fun x hx => getA_popA_ne _ _ _ hx
  -- queue elements elsewhere never carry the removed id
  have hother : ∀ (ib : Bool) (pq : ℚ × List Msg), pq ∈ lvOf b ib →
      ¬(ib = sideBit m.side ∧ pq.1 = m.price) →
      ∀ x ∈ pq.2, x.order_id ≠ id := by
    intro ib pq hpq hnot x hx he
    have hfacts := ((hsides ib).2 pq hpq).2.2 x hx
    have hxm : x = m := by
      have hsx := hfacts.2.2
      rw [he, h] at hsx
      exact (Option.some.inj hsx).symm
    subst hxm
    refine hnot ⟨hfacts.2.1.symm ▸ rfl, hfacts.1.symm ▸ rfl⟩
  rw [hbook]
  set sb := sideBit m.side with hsb
  set lv := lvOf b sb with hlv
  set q1 := eraseFirst q m with hq1
  set lv1 := if q1 = [] then popA lv m.price else setA lv m.price q1 with hlv1
  set o1 := popA b.orders id with ho1
  set b1 := setLv { b with orders := o1 } sb lv1 with hb1
  have horders : b1.orders = o1 := by rw [hb1]; simp
  have hlvsame : lvOf b1 sb = lv1 := by rw [hb1]; simp
  have hlvother : ∀ ib, ib ≠ sb → lvOf b1 ib = lvOf b ib := by
    intro ib hib
    rw [hb1, lvOf_setLv_other _ hib, lvOf_mk_orders]
  have hlv1nodup : (keysA lv1).Nodup := by
    rw [hlv1]
    by_cases hc : q1 = []
    · rw [if_pos hc]
      exact keysA_popA_nodup (hsides sb).1
    · rw [if_neg hc]
      exact keysA_setA_nodup _ (hsides sb).1
  refine ⟨?_, ?_, ?_⟩
  · rw [horders, ho1]
    exact keysA_popA_nodup hnd
  · intro ib
    by_cases hib : ib = sb
    · subst hib
      rw [hlvsame, horders]
      refine ⟨hlv1nodup, ?_⟩
      intro pq hpq
      have hmem1 : (pq ∈ lv ∧ pq.1 ≠ m.price) ∨ (q1 ≠ [] ∧ pq = (m.price, q1)) := by
        rw [hlv1] at hpq
        by_cases hc : q1 = []
        · rw [if_pos hc] at hpq
          left
          exact mem_popA_nodup (hsides sb).1 hpq
        · rw [if_neg hc] at hpq
          rcases mem_setA_nodup (hsides sb).1 hpq with h' | h'
          · left; exact h'
          · right; exact ⟨hc, h'⟩
      rcases hmem1 with ⟨hmem, hnep⟩ | ⟨hne0, heq⟩
      · obtain ⟨hne', hnd', helem⟩ := (hsides sb).2 pq hmem
        refine ⟨hne', hnd', ?_⟩
        intro x hx
        obtain ⟨ha, hb', hc'⟩ := helem x hx
        refine ⟨ha, hb', ?_⟩
        rw [ho1, hlook x (hother sb pq hmem (fun hand => hnep hand.2) x hx), hc']
      · subst heq
        refine ⟨hne0, ?_, ?_⟩
        · exact List.Nodup.sublist (List.Sublist.map _ (eraseFirst_sublist q m)) hqnodup
        · intro x hx
          have hxq : x ∈ q := mem_eraseFirst (hq1 ▸ hx)
          obtain ⟨ha, hb', hc'⟩ := hqelem x hxq
          refine ⟨ha, hb', ?_⟩
          rw [ho1, hlook x (herase x (hq1 ▸ hx)), hc']
    · rw [hlvother ib hib, horders]
      refine ⟨(hsides ib).1, ?_⟩
      intro pq hpq
      obtain ⟨hne', hnd', helem⟩ := (hsides ib).2 pq hpq
      refine ⟨hne', hnd', ?_⟩
      intro x hx
      obtain ⟨ha, hb', hc'⟩ := helem x hx
      refine ⟨ha, hb', ?_⟩
      rw [ho1, hlook x (hother ib pq hpq (fun hand => hib hand.1) x hx), hc']
  · intro kv hkv
    rw [horders, ho1] at hkv
    obtain ⟨hmem, hne⟩ := mem_popA_nodup hnd hkv
    obtain ⟨h1, h2, q₂, hq₂, hmq₂⟩ := hentries kv hmem
    refine ⟨h1, h2, ?_⟩
    by_cases hib : sideBit kv.2.side = sb
    · rw [hib, hlvsame]
      by_cases hp : kv.2.price = m.price
      · have hq2q : q₂ = q := by
          rw [hib, hp] at hq₂
          exact Option.some.inj (hq₂.symm.trans hq)
        subst hq2q
        have hkvne : kv.2 ≠ m := by
          intro he
          exact hne (by rw [← h1, he, hid])
        have hkv1 : kv.2 ∈ q1 := hq1 ▸ mem_eraseFirst_of_ne hmq₂ hkvne
        have hq1ne : q1 ≠ [] := by
          intro hc
          rw [hc] at hkv1
          simp at hkv1
        refine ⟨q1, ?_, hkv1⟩
        rw [hlv1, if_neg hq1ne, hp, getA_setA_self]
      · refine ⟨q₂, ?_, hmq₂⟩
        rw [hlv1]
        by_cases hc : q1 = []
        · rw [if_pos hc, getA_popA_ne _ _ _ hp, hlv]
          rw [hib] at hq₂
          exact hq₂
        · rw [if_neg hc, getA_setA_ne _ _ _ _ hp, hlv]
          rw [hib] at hq₂
          exact hq₂
    · rw [hlvother _ hib]
      exact ⟨q₂, hq₂, hmq₂⟩

/-! ### CANCEL / MODIFY / EXECUTE preserve well-formedness -/

theorem handle_cancel_of_none {b : SSBook} {msg : Msg}
    (h : getA b.orders msg.order_id = none) : handle_cancel b msg = ⟨b, 1, 0⟩ := by
  unfold handle_cancel
  rw [h]

theorem handle_cancel_book_of_some {b : SSBook} {msg : Msg} {m : Msg}
    (h : getA b.orders msg.order_id = some m) :
    (handle_cancel b msg).book = (removeResident b msg.order_id m).1 := by
  unfold handle_cancel removeResident
  rw [h]

theorem wf_cancel {b : SSBook} {msg : Msg} (hwf : WF b) :
    WF (handle_cancel b msg).book := by
  rcases h : getA b.orders msg.order_id with _ | m
  · rw [handle_cancel_of_none h]
    exact hwf
  · rw [handle_cancel_book_of_some h]
    exact wf_removeResident hwf h

theorem handle_modify_of_none {b : SSBook} {msg : Msg}
    (h : getA b.orders msg.order_id = none) :
    (handle_modify b msg).book = (handle_new b msg).book := by
  unfold handle_modify
  rw [h]

theorem handle_modify_book_of_some {b : SSBook} {msg : Msg} {old : Msg}
    (h : getA b.orders msg.order_id = some old) :
    (handle_modify b msg).book =
      (handle_new (removeResident b msg.order_id old).1 msg).book := by
  unfold handle_modify
  rw [h]

theorem wf_modify {b : SSBook} {msg : Msg} (hwf : WF b) (hs : 0 < msg.size) :
    WF (handle_modify b msg).book := by
  rcases h : getA b.orders msg.order_id with _ | old
  · rw [handle_modify_of_none h]
    exact wf_new hwf hs
  · rw [handle_modify_book_of_some h]
    exact wf_new (wf_removeResident hwf h) hs

theorem handle_execute_of_none {b : SSBook} {msg : Msg}
    (h : getA b.orders msg.order_id = none) : handle_execute b msg = ⟨b, 1, 0⟩ := by
  unfold handle_execute
  rw [h]

/-- In-place size update of a resident order (positive new size) preserves
well-formedness. -/
theorem wf_replace {b : SSBook} {id : String} {m m' : Msg} {q : List Msg}
    (hwf : WF b) (h : getA b.orders id = some m)
    (hq : getA (lvOf b (sideBit m.side)) m.price = some q)
    (hid' : m'.order_id = m.order_id) (hside' : m'.side = m.side)
    (hprice' : m'.price = m.price) (hsz : 0 < m'.size) :
    WF (setLv { b with orders := setA b.orders id m' } (sideBit m.side)
        (setA (lvOf b (sideBit m.side)) m.price (replaceFirst q m m'))) := by
  obtain ⟨hnd, hsides, hentries⟩ := hwf
  obtain ⟨hid0, hsz0, q₀, hq₀, hmq₀⟩ := hentries (id, m) (getA_mem h)
  have hid : m.order_id = id := hid0
  have hmq : m ∈ q := by
    have : q₀ = q := Option.some.inj (hq₀.symm.trans hq)
    exact this ▸ hmq₀
  have hqnodup : (q.map Msg.order_id).Nodup :=
    ((hsides (sideBit m.side)).2 (m.price, q) (getA_mem hq)).2.1
  have hqelem := ((hsides (sideBit m.side)).2 (m.price, q) (getA_mem hq)).2.2
  have herase : ∀ x ∈ eraseFirst q m, x.order_id ≠ id := by
    intro x hx he
    exact nodup_ids_eraseFirst_ne hqnodup hmq x hx (he.trans hid.symm)
  -- elements other than the shared object never carry the updated id
  have hother : ∀ (ib : Bool) (pq : ℚ × List Msg), pq ∈ lvOf b ib →
      ¬(ib = sideBit m.side ∧ pq.1 = m.price) →
      ∀ x ∈ pq.2, x.order_id ≠ id := by
    intro ib pq hpq hnot x hx he
    have hfacts := ((hsides ib).2 pq hpq).2.2 x hx
    have hxm : x = m := by
      have hsx := hfacts.2.2
      rw [he, h] at hsx
      exact (Option.some.inj hsx).symm
    subst hxm
    exact hnot ⟨hfacts.2.1.symm ▸ rfl, hfacts.1.symm ▸ rfl⟩
  set sb := sideBit m.side with hsb
  set lv := lvOf b sb with hlv
  set q1 := replaceFirst q m m' with hq1
  set o1 := setA b.orders id m' with ho1
  set b1 := setLv { b with orders := o1 } sb (setA lv m.price q1) with hb1
  have horders : b1.orders = o1 := by rw [hb1]; simp
  have hlvsame : lvOf b1 sb = setA lv m.price q1 := by rw [hb1]; simp
  have hlvother : ∀ ib, ib ≠ sb → lvOf b1 ib = lvOf b ib := by
    intro ib hib
    rw [hb1, lvOf_setLv_other _ hib, lvOf_mk_orders]
  have hlook : ∀ x : Msg, x.order_id ≠ id →
      getA o1 x.order_id = getA b.orders x.order_id :=
    fun x hx => getA_setA_ne _ _ _ _ hx
  have hq1mem : ∀ x ∈ q1, x = m' ∨ (x ∈ eraseFirst q m) := by
    obtain ⟨l₁, l₂, hdec, hne1⟩ := exists_first_occurrence hmq
    intro x hx
    rw [hq1, hdec, replaceFirst_append_of_forall_ne hne1] at hx
    rw [hdec, eraseFirst_append_of_forall_ne hne1]
    rw [List.mem_append, List.mem_cons] at hx
    rcases hx with hx | hx | hx
    · right; rw [List.mem_append]; left; exact hx
    · left; exact hx
    · right; rw [List.mem_append]; right; exact hx
  refine ⟨?_, ?_, ?_⟩
  · rw [horders, ho1]
    exact keysA_setA_nodup _ hnd
  · intro ib
    by_cases hib : ib = sb
    · subst hib
      rw [hlvsame, horders]
      refine ⟨keysA_setA_nodup _ (hsides sb).1, ?_⟩
      intro pq hpq
      rcases mem_setA_nodup (hsides sb).1 hpq with ⟨hmem, hnep⟩ | heq
      · obtain ⟨hne', hnd', helem⟩ := (hsides sb).2 pq hmem
        refine ⟨hne', hnd', ?_⟩
        intro x hx
        obtain ⟨ha, hb', hc'⟩ := helem x hx
        refine ⟨ha, hb', ?_⟩
        rw [ho1, hlook x (hother sb pq hmem (fun hand => hnep hand.2) x hx), hc']
      · subst heq
        refine ⟨?_, ?_, ?_⟩
        · exact replaceFirst_ne_nil (List.ne_nil_of_mem hmq)
        · show ((replaceFirst q m m').map Msg.order_id).Nodup
          rw [map_replaceFirst_eq Msg.order_id (hid' ▸ rfl)]
          exact hqnodup
        · intro x hx
          rcases hq1mem x (hq1 ▸ hx) with hx' | hx'
          · subst hx'
            refine ⟨hprice', hside' ▸ rfl, ?_⟩
            rw [ho1, hid', hid, getA_setA_self]
          · have hxq : x ∈ q := mem_eraseFirst hx'
            obtain ⟨ha, hb', hc'⟩ := hqelem x hxq
            refine ⟨ha, hb', ?_⟩
            rw [ho1, hlook x (herase x hx'), hc']
    · rw [hlvother ib hib, horders]
      refine ⟨(hsides ib).1, ?_⟩
      intro pq hpq
      obtain ⟨hne', hnd', helem⟩ := (hsides ib).2 pq hpq
      refine ⟨hne', hnd', ?_⟩
      intro x hx
      obtain ⟨ha, hb', hc'⟩ := helem x hx
      refine ⟨ha, hb', ?_⟩
      rw [ho1, hlook x (hother ib pq hpq (fun hand => hib hand.1) x hx), hc']
  · intro kv hkv
    rw [horders, ho1] at hkv
    rcases mem_setA_nodup hnd hkv with ⟨hmem, hne⟩ | heq
    · obtain ⟨h1, h2, q₂, hq₂, hmq₂⟩ := hentries kv hmem
      refine ⟨h1, h2, ?_⟩
      by_cases hib : sideBit kv.2.side = sb
      · rw [hib, hlvsame]
        by_cases hp : kv.2.price = m.price
        · have hq2q : q₂ = q := by
            rw [hib, hp] at hq₂
            exact Option.some.inj (hq₂.symm.trans hq)
          subst hq2q
          have hkvne : kv.2 ≠ m := by
            intro he
            apply hne
            rw [← h1, he, hid]
          refine ⟨q1, ?_, ?_⟩
          · rw [hp, getA_setA_self]
          · rw [hq1]
            exact mem_replaceFirst_of_ne hmq₂ hkvne
        · refine ⟨q₂, ?_, hmq₂⟩
          rw [getA_setA_ne _ _ _ _ hp, hlv]
          rw [hib] at hq₂
          exact hq₂
      · rw [hlvother _ hib]
        exact ⟨q₂, hq₂, hmq₂⟩
    · subst heq
      refine ⟨hid'.trans hid, hsz, ?_⟩
      show ∃ qq, getA (lvOf b1 (sideBit m'.side)) m'.price = some qq ∧ m' ∈ qq
      have hsb' : sideBit m'.side = sb := by rw [hside']
      rw [hsb', hlvsame, hprice', getA_setA_self]
      refine ⟨q1, rfl, ?_⟩
      rw [hq1]
      obtain ⟨l₁, l₂, hdec, hne1⟩ := exists_first_occurrence hmq
      rw [hdec, replaceFirst_append_of_forall_ne hne1]
      simp

/-- On a partial fill the book keeps the order in place with reduced size. -/
theorem handle_execute_book_part {b : SSBook} {msg passive : Msg} {q : List Msg}
    (h : getA b.orders msg.order_id = some passive)
    (hq : getA (lvOf b (sideBit passive.side)) passive.price = some q)
    (hpart : msg.size < passive.size) :
    handle_execute b msg =
      ⟨setLv { b with orders := setA b.orders msg.order_id { passive with size := passive.size - msg.size } }
        (sideBit passive.side)
        (setA (lvOf b (sideBit passive.side)) passive.price
          (replaceFirst q passive { passive with size := passive.size - msg.size })), 0, 0⟩ := by
  have h1 : ¬(passive.size < msg.size) := not_lt.mpr (le_of_lt hpart)
  have h2 : ¬(passive.size - msg.size ≤ 0) := not_le.mpr (sub_pos.mpr hpart)
  unfold handle_execute
  rw [h]
  simp only [getSide_eq, setSide_eq, if_neg h1, hq, if_neg h2]

/-- On a full fill (capped or exact) the final book state coincides with
the cancel-style removal of the resident order. -/
theorem handle_execute_book_full {b : SSBook} {msg passive : Msg}
    (hwf : WF b) (h : getA b.orders msg.order_id = some passive)
    (hfull : passive.size ≤ msg.size) :
    handle_execute b msg =
      ⟨(removeResident b msg.order_id passive).1,
        (if passive.size < msg.size then 1 else 0 : Nat), 0⟩ := by
  obtain ⟨q, hq, hmq, hst, hbook⟩ := removeResident_spec hwf h
  obtain ⟨hnd, hsides, hentries⟩ := hwf
  obtain ⟨hid0, -, -⟩ := hentries (msg.order_id, passive) (getA_mem h)
  have hid : passive.order_id = msg.order_id := hid0
  have hqnodup : (q.map Msg.order_id).Nodup :=
    ((hsides (sideBit passive.side)).2 (passive.price, q) (getA_mem hq)).2.1
  obtain ⟨l₁, l₂, hdec, hne1⟩ := exists_first_occurrence hmq
  have herase : eraseFirst q passive = l₁ ++ l₂ := by
    rw [hdec]
    exact eraseFirst_append_of_forall_ne hne1
  have hne2 : ∀ x ∈ l₁ ++ l₂, x.order_id ≠ passive.order_id := by
    intro x hx
    exact nodup_ids_eraseFirst_ne hqnodup hmq x (herase ▸ hx)
  have hnew : passive.size - (if passive.size < msg.size then passive.size
      else msg.size) ≤ 0 := by
    by_cases hc : passive.size < msg.size
    · rw [if_pos hc]
      simp
    · rw [if_neg hc]
      linarith
  unfold handle_execute
  rw [h]
  simp only [getSide_eq, setSide_eq, hq, if_pos hnew]
  set e := if passive.size < msg.size then passive.size else msg.size with he
  set p' := { passive with size := passive.size - e } with hp'
  have hps : p'.side = passive.side := by rw [hp']
  have hpp : p'.price = passive.price := by rw [hp']
  have hpid : p'.order_id = passive.order_id := by rw [hp']
  have hrepl : replaceFirst q passive p' = l₁ ++ p' :: l₂ := by
    rw [hdec]
    exact replaceFirst_append_of_forall_ne hne1
  have hne1' : ∀ x ∈ l₁, x ≠ p' := by
    intro x hx he'
    exact hne2 x (List.mem_append.2 (Or.inl hx)) (he' ▸ hpid)
  have hmid : eraseFirst (l₁ ++ p' :: l₂) p' = l₁ ++ l₂ :=
    eraseFirst_append_of_forall_ne hne1'
  -- the removal block on the mutated level
  rw [hbook]
  unfold removeResident removeCore
  simp only [getSide_eq, setSide_eq, hps, hpp, lvOf_setLv_same, orders_setLv,
    symbol_setLv, hrepl]
  rw [getA_setA_self]
  dsimp only
  rw [if_pos (show p' ∈ l₁ ++ p' :: l₂ by simp), hmid, herase]
  simp only [popA_setA_self, setA_setA]
  cases hsb : sideBit passive.side <;> simp [setLv, lvOf, hsb]

theorem wf_execute {b : SSBook} {msg : Msg} (hwf : WF b) :
    WF (handle_execute b msg).book := by
  rcases h : getA b.orders msg.order_id with _ | passive
  · rw [handle_execute_of_none h]
    exact hwf
  · by_cases hfull : passive.size ≤ msg.size
    · rw [show (handle_execute b msg).book = (removeResident b msg.order_id passive).1 from
        by rw [handle_execute_book_full hwf h hfull]]
      exact wf_removeResident hwf h
    · have hpart : msg.size < passive.size := lt_of_not_le hfull
      obtain ⟨hid0, hsz0, q, hq, hmq⟩ := hwf.2.2 (msg.order_id, passive) (getA_mem h)
      rw [show (handle_execute b msg).book = _ from by rw [handle_execute_book_part h hq hpart]]
      exact wf_replace hwf h hq rfl rfl rfl (by simpa using sub_pos.mpr hpart)

/-- One engine step (any of the four event kinds, or an ignored unknown
kind) preserves well-formedness, provided a NEW or MODIFY carries a
positive size. -/
theorem wf_step {b : SSBook} {msg : Msg} (hwf : WF b)
    (hs : msg.type = "NEW" ∨ msg.type = "MODIFY" → 0 < msg.size) :
    WF (step b msg) := by
  unfold step dispatch
  by_cases h1 : msg.type = "NEW"
  · rw [if_pos h1]
    exact wf_new hwf (hs (Or.inl h1))
  · rw [if_neg h1]
    by_cases h2 : msg.type = "CANCEL"
    · rw [if_pos h2]
      exact wf_cancel hwf
    · rw [if_neg h2]
      by_cases h3 : msg.type = "MODIFY"
      · rw [if_pos h3]
        exact wf_modify hwf (hs (Or.inr h3))
      · rw [if_neg h3]
        by_cases h4 : msg.type = "EXECUTE"
        · rw [if_pos h4]
          exact wf_execute hwf
        · rw [if_neg h4]
          exact hwf

/-- Every state reached from a well-formed book by events whose NEW and
MODIFY sizes are positive is well formed. -/
theorem wf_runEvents {b : SSBook} {evs : List Msg} (hwf : WF b)
    (hs : ∀ e ∈ evs, e.type = "NEW" ∨ e.type = "MODIFY" → 0 < e.size) :
    WF (runEvents b evs) := by
  induction evs generalizing b with
  | nil => exact hwf
  | cons e t ih =>
    unfold runEvents
    rw [List.foldl_cons]
    exact ih (wf_step hwf (hs e (List.mem_cons_self e t)))
      (fun x hx => hs x (List.mem_cons_of_mem _ hx))

/-! ### The claim-level book invariant -/

theorem countIdQ_eq_zero_iff (q : List Msg) (id : String) :
    countIdQ q id = 0 ↔ ∀ x ∈ q, x.order_id ≠ id := by
  unfold countIdQ
  rw [List.length_eq_zero, List.filter_eq_nil_iff]
  simp

theorem countIdQ_eq_one {q : List Msg} {m : Msg} (hm : m ∈ q)
    (hnd : (q.map Msg.order_id).Nodup) : countIdQ q m.order_id = 1 := by
  have hothers := nodup_ids_eraseFirst_ne hnd hm
  obtain ⟨l₁, l₂, hdec, hne⟩ := exists_first_occurrence hm
  rw [hdec, eraseFirst_append_of_forall_ne hne] at hothers
  subst hdec
  unfold countIdQ
  rw [List.filter_append, List.filter_cons]
  have h₁ : l₁.filter (fun x => decide (x.order_id = m.order_id)) = [] := by
    rw [List.filter_eq_nil_iff]
    intro x hx
    simpa using hothers x (List.mem_append.2 (Or.inl hx))
  have h₂ : l₂.filter (fun x => decide (x.order_id = m.order_id)) = [] := by
    rw [List.filter_eq_nil_iff]
    intro x hx
    simpa using hothers x (List.mem_append.2 (Or.inr hx))
  rw [h₁, h₂]
  simp

theorem sumCounts_eq_zero {lv : Levels} {id : String}
    (h : ∀ pq ∈ lv, ∀ x ∈ pq.2, x.order_id ≠ id) : sumCounts lv id = 0 := by
  unfold sumCounts
  rw [List.sum_eq_zero]
  intro n hn
  rw [List.mem_map] at hn
  obtain ⟨pq, hpq, hc⟩ := hn
  rw [← hc]
  exact (countIdQ_eq_zero_iff pq.2 id).2 (h pq hpq)

theorem sumCounts_eq_one {lv : Levels} {p₀ : ℚ} {q₀ : List Msg} {id : String}
    (hnd : (keysA lv).Nodup) (hmem : (p₀, q₀) ∈ lv) (h1 : countIdQ q₀ id = 1)
    (h0 : ∀ pq ∈ lv, pq.1 ≠ p₀ → countIdQ pq.2 id = 0) : sumCounts lv id = 1 := by
  induction lv with
  | nil => simp at hmem
  | cons hd t ih =>
    obtain ⟨p, qq⟩ := hd
    rw [keysA_cons, List.nodup_cons] at hnd
    unfold sumCounts
    rw [List.map_cons, List.sum_cons]
    rcases List.mem_cons.1 hmem with he | hmem'
    · obtain ⟨hp, hq⟩ := Prod.mk.injEq _ _ _ _ ▸ he
      have htail : (t.map (fun pq => countIdQ pq.2 id)).sum = 0 := by
        rw [List.sum_eq_zero]
        intro n hn
        rw [List.mem_map] at hn
        obtain ⟨pq, hpq, hc⟩ := hn
        rw [← hc]
        refine h0 pq (List.mem_cons_of_mem _ hpq) ?_
        intro hpp
        rw [← hp] at hnd
        exact hnd.1 (hpp ▸ List.mem_map_of_mem Prod.fst hpq)
      rw [htail, ← hq, h1]
    · have hpne : p ≠ p₀ := by
        intro he'
        exact hnd.1 (he' ▸ List.mem_map_of_mem Prod.fst hmem')
      have hhead : countIdQ qq id = 0 := h0 (p, qq) (List.mem_cons_self _ _) hpne
      have htail := ih hnd.2 hmem'
        (fun pq hpq hne => h0 pq (List.mem_cons_of_mem _ hpq) hne)
      unfold sumCounts at htail
      rw [hhead, htail]

theorem exists_of_sumCounts_ne_zero {lv : Levels} {id : String}
    (h : sumCounts lv id ≠ 0) : ∃ pq ∈ lv, ∃ x ∈ pq.2, x.order_id = id := by
  by_contra hc
  push_neg at hc
  exact h (sumCounts_eq_zero hc)

/-- A well-formed book satisfies the specification invariant. -/
theorem wf_claimInv {b : SSBook} (hwf : WF b) : ClaimInv b := by
  obtain ⟨hnd, hsides, hentries⟩ := hwf
  have hsize : ∀ (ib : Bool), ∀ pq ∈ lvOf b ib, ∀ m ∈ pq.2, 0 < m.size := by
    intro ib pq hpq m hm
    have hc := ((hsides ib).2 pq hpq).2.2 m hm
    exact (hentries (m.order_id, m) (getA_mem hc.2.2)).2.1
  refine ⟨?_, ?_, ?_⟩
  · intro id
    constructor
    · intro hid
      rcases h : getA b.orders id with _ | m
      · rw [h] at hid
        simp at hid
      · obtain ⟨hid0, hsz0, q, hq, hmq⟩ := hentries (id, m) (getA_mem h)
        have hid1 : m.order_id = id := hid0
        have hqnodup : (q.map Msg.order_id).Nodup :=
          ((hsides (sideBit m.side)).2 (m.price, q) (getA_mem hq)).2.1
        have hcnt : countIdQ q id = 1 := hid1 ▸ countIdQ_eq_one hmq hqnodup
        have hsame : sumCounts (lvOf b (sideBit m.side)) id = 1 := by
          refine sumCounts_eq_one (hsides (sideBit m.side)).1 (getA_mem hq) hcnt ?_
          intro pq hpq hpne
          rw [countIdQ_eq_zero_iff]
          intro x hx he
          have hfacts := ((hsides (sideBit m.side)).2 pq hpq).2.2 x hx
          have hxm : x = m := by
            have hsx := hfacts.2.2
            rw [he, h] at hsx
            exact (Option.some.inj hsx).symm
          exact hpne (by rw [← hfacts.1, hxm])
        have hdiff : sumCounts (lvOf b (!sideBit m.side)) id = 0 := by
          refine sumCounts_eq_zero ?_
          intro pq hpq x hx he
          have hfacts := ((hsides (!sideBit m.side)).2 pq hpq).2.2 x hx
          have hxm : x = m := by
            have hsx := hfacts.2.2
            rw [he, h] at hsx
            exact (Option.some.inj hsx).symm
          have := hfacts.2.1
          rw [hxm] at this
          simp at this
        unfold totalCount
        cases hsb : sideBit m.side
        · rw [hsb] at hsame hdiff
          simp only [Bool.not_false] at hdiff
          simp only [lvOf] at hsame hdiff
          simp at hsame hdiff
          rw [hsame, hdiff]
        · rw [hsb] at hsame hdiff
          simp only [Bool.not_true] at hdiff
          simp only [lvOf] at hsame hdiff
          simp at hsame hdiff
          rw [hsame, hdiff]
    · intro hcnt
      unfold totalCount at hcnt
      have hone : sumCounts b.bids id ≠ 0 ∨ sumCounts b.asks id ≠ 0 := by
        by_contra hc
        push_neg at hc
        rw [hc.1, hc.2] at hcnt
        simp at hcnt
      have hex : ∃ (ib : Bool), ∃ pq ∈ lvOf b ib, ∃ x ∈ pq.2, x.order_id = id := by
        rcases hone with h0 | h0
        · exact ⟨true, exists_of_sumCounts_ne_zero (by simpa [lvOf] using h0)⟩
        · exact ⟨false, exists_of_sumCounts_ne_zero (by simpa [lvOf] using h0)⟩
      obtain ⟨ib, pq, hpq, x, hx, hxid⟩ := hex
      have hc := ((hsides ib).2 pq hpq).2.2 x hx
      rw [hxid] at hc
      rw [hc.2.2]
      simp
  · intro pq hpq
    have hpq' : pq ∈ lvOf b true := by simpa [lvOf] using hpq
    exact ⟨((hsides true).2 pq hpq').1, hsize true pq hpq'⟩
  · intro pq hpq
    have hpq' : pq ∈ lvOf b false := by simpa [lvOf] using hpq
    exact ⟨((hsides false).2 pq hpq').1, hsize false pq hpq'⟩

/-! ### Claim theorems for the Symbol Book -/

/-- C2: EXECUTE caps the fill at the resident size: for a well-formed book
holding resident order `X = msg.order_id` of size `s > 0`, `handle_execute`
never logs an error (and raises nothing — it is a total function); when
`min(e, s) = s` (i.e. `s ≤ e`) the order disappears from the lookup table
and from its price-level queue, the level being deleted when it empties;
otherwise the order's size becomes `s - e` and the queue is updated by
`replaceFirst`, which by construction keeps the order's exact FIFO
position. -/
theorem C2_execute_capped (b : SSBook) (msg passive : Msg) (q : List Msg)
    (hwf : WF b) (h : getA b.orders msg.order_id = some passive)
    (hq : getA (lvOf b (sideBit passive.side)) passive.price = some q)
    (hsz : 0 < passive.size) :
    (handle_execute b msg).errs = 0 ∧
    (passive.size ≤ msg.size →
      getA (handle_execute b msg).book.orders msg.order_id = none ∧
      getA (lvOf (handle_execute b msg).book (sideBit passive.side)) passive.price =
        (if eraseFirst q passive = [] then none
         else some (eraseFirst q passive))) ∧
    (msg.size < passive.size →
      getA (handle_execute b msg).book.orders msg.order_id =
        some { passive with size := passive.size - msg.size } ∧
      getA (lvOf (handle_execute b msg).book (sideBit passive.side)) passive.price =
        some (replaceFirst q passive { passive with size := passive.size - msg.size })) := by
  obtain ⟨q₀, hq₀, hmq₀, hst₀, hbook₀⟩ := removeResident_spec hwf h
  have hqq : q₀ = q := Option.some.inj (hq₀.symm.trans hq)
  subst hqq
  by_cases hfull : passive.size ≤ msg.size
  · rw [handle_execute_book_full hwf h hfull]
    refine ⟨rfl, fun _ => ?_, fun hlt => absurd hfull (not_le.mpr hlt)⟩
    rw [hbook₀]
    constructor
    · rw [orders_setLv]
      exact getA_popA_self _ _ hwf.1
    · rw [lvOf_setLv_same]
      by_cases hc : eraseFirst q₀ passive = []
      · rw [if_pos hc, if_pos hc]
        exact getA_popA_self _ _ (hwf.2.1 (sideBit passive.side)).1
      · rw [if_neg hc, if_neg hc]
        exact getA_setA_self _ _ _
  · have hpart : msg.size < passive.size := lt_of_not_le hfull
    rw [handle_execute_book_part h hq hpart]
    refine ⟨rfl, fun hle => absurd hle hfull, fun _ => ?_⟩
    constructor
    · rw [orders_setLv]
      exact getA_setA_self _ _ _
    · rw [lvOf_setLv_same]
      exact getA_setA_self _ _ _

/-- Witness for C2: a book holding `X` of size 10, executed for 15; the
fill is capped and `X` is fully removed. -/
theorem C2_witness :
    (0 : ℚ) < wMsgX.size ∧
    ((handle_execute wBookX wMsgE).errs = 0 ∧
     (wMsgX.size ≤ wMsgE.size →
       getA (handle_execute wBookX wMsgE).book.orders wMsgE.order_id = none ∧
       getA (lvOf (handle_execute wBookX wMsgE).book (sideBit wMsgX.side)) wMsgX.price =
         (if eraseFirst [wMsgX] wMsgX = [] then none
          else some (eraseFirst [wMsgX] wMsgX))) ∧
     (wMsgE.size < wMsgX.size →
       getA (handle_execute wBookX wMsgE).book.orders wMsgE.order_id =
         some { wMsgX with size := wMsgX.size - wMsgE.size } ∧
       getA (lvOf (handle_execute wBookX wMsgE).book (sideBit wMsgX.side)) wMsgX.price =
         some (replaceFirst [wMsgX] wMsgX { wMsgX with size := wMsgX.size - wMsgE.size }))) :=
  ⟨by decide,
    C2_execute_capped wBookX wMsgE wMsgX [wMsgX]
      (wf_new (wf_empty "S") (by decide))
      (by decide) (by decide) (by decide)⟩

/-- C3 (amended): applying any sequence of NEW/CANCEL/MODIFY/EXECUTE
events, each NEW and MODIFY carrying size > 0, to an initially empty
Symbol Book always yields a state where an order id is in the lookup table
iff it occupies exactly one price-level queue across both sides, every
resident order has size > 0, and no empty level exists on either side. -/
theorem C3_invariant_preserved (s : String) (evs : List Msg)
    (hs : ∀ e ∈ evs, e.type = "NEW" ∨ e.type = "MODIFY" → 0 < e.size) :
    ClaimInv (runEvents (emptyBook s) evs) :=
  wf_claimInv (wf_runEvents (wf_empty s) hs)

/-- Counterexample to C3 as stated: a NEW of size 0 is accepted by
`handle_new` and becomes a resident order of size 0, violating the
"every resident order has size > 0" part of the invariant. -/
theorem C3_counterexample :
    ¬ ClaimInv (runEvents (emptyBook "S")
      [⟨"NEW", "A", "S", "bid", 100, 0⟩]) := by
  intro h
  have h2 := (h.2.1 (100, [⟨"NEW", "A", "S", "bid", 100, 0⟩])
      (by decide)).2 ⟨"NEW", "A", "S", "bid", 100, 0⟩ (by decide)
  norm_num at h2

/-- Witness for C3: a concrete positive-size event sequence exercising all
four kinds. -/
theorem C3_witness :
    (∀ e ∈ [(⟨"NEW", "A", "S", "bid", 100, 5⟩ : Msg),
            ⟨"NEW", "B", "S", "bid", 100, 4⟩,
            ⟨"MODIFY", "A", "S", "bid", 100, 6⟩,
            ⟨"EXECUTE", "B", "S", "bid", 100, 9⟩,
            ⟨"CANCEL", "A", "S", "bid", 100, 0⟩],
        e.type = "NEW" ∨ e.type = "MODIFY" → 0 < e.size) ∧
    ClaimInv (runEvents (emptyBook "S")
      [⟨"NEW", "A", "S", "bid", 100, 5⟩,
       ⟨"NEW", "B", "S", "bid", 100, 4⟩,
       ⟨"MODIFY", "A", "S", "bid", 100, 6⟩,
       ⟨"EXECUTE", "B", "S", "bid", 100, 9⟩,
       ⟨"CANCEL", "A", "S", "bid", 100, 0⟩]) :=
  ⟨by decide, C3_invariant_preserved "S" _ (by decide)⟩

/-- C5: a NEW whose order id is already resident and a CANCEL whose order
id is unknown are both dropped: the book state is returned exactly
unchanged, exactly one warning log record is emitted (the code's error
accounting for dropped events), no error record is emitted, and no
exception is raised (the handlers are total functions). -/
theorem C5_duplicate_and_unknown_dropped (b : SSBook) (msgN msgC : Msg)
    (hdup : (getA b.orders msgN.order_id).isSome)
    (hunk : getA b.orders msgC.order_id = none) :
    handle_new b msgN = ⟨b, 1, 0⟩ ∧ handle_cancel b msgC = ⟨b, 1, 0⟩ :=
  ⟨handle_new_of_dup hdup, handle_cancel_of_none hunk⟩

/-- Witness for C5 on a one-order book. -/
theorem C5_witness :
    ((getA (handle_new (emptyBook "S")
        ⟨"NEW", "A", "S", "bid", 100, 5⟩).book.orders "A").isSome ∧
      getA (handle_new (emptyBook "S")
        ⟨"NEW", "A", "S", "bid", 100, 5⟩).book.orders "Z" = none) ∧
    (handle_new (handle_new (emptyBook "S")
        ⟨"NEW", "A", "S", "bid", 100, 5⟩).book
        ⟨"NEW", "A", "S", "ask", 7, 3⟩ =
      ⟨(handle_new (emptyBook "S") ⟨"NEW", "A", "S", "bid", 100, 5⟩).book, 1, 0⟩ ∧
     handle_cancel (handle_new (emptyBook "S")
        ⟨"NEW", "A", "S", "bid", 100, 5⟩).book
        ⟨"CANCEL", "Z", "S", "bid", 0, 0⟩ =
      ⟨(handle_new (emptyBook "S") ⟨"NEW", "A", "S", "bid", 100, 5⟩).book, 1, 0⟩) :=
  ⟨⟨by decide, by decide⟩,
    C5_duplicate_and_unknown_dropped _ _ _ (by decide) (by decide)⟩

/-! ### C1: MODIFY is cancel-then-new -/

theorem step_eq_new {b : SSBook} {msg : Msg} (h : msg.type = "NEW") :
    step b msg = (handle_new b msg).book := by
  unfold step dispatch
  rw [if_pos h]

theorem step_eq_modify {b : SSBook} {msg : Msg} (h : msg.type = "MODIFY") :
    step b msg = (handle_modify b msg).book := by
  unfold step dispatch
  rw [if_neg (by rw [h]; decide), if_neg (by rw [h]; decide), if_pos h]

/-- C1: MODIFY is cancel-then-new and always loses time priority.  From
any well-formed book in which order ids `A ≠ B` are not resident, applying
`NEW A@(sd,p)`, `NEW B@(sd,p)`, then `MODIFY A` produces: when the MODIFY
carries the same side and price, the queue at `(sd, p)` is the old queue
followed by `[B, A]` — the modified order was removed from its position
and re-appended at the tail; when it carries a different side or price,
the modified order sits at the tail of the new `(side, price)` level and
the queue at `(sd, p)` is the old queue followed by `[B]` alone. -/
theorem C1_modify_cancel_then_new
    (b : SSBook) (A B sym sd sd' : String) (p p' sA sB s' : ℚ)
    (hwf : WF b) (hAB : A ≠ B)
    (hA : getA b.orders A = none) (hB : getA b.orders B = none) :
    ((sd' = sd ∧ p' = p) →
      getA (lvOf (runEvents b
          [⟨"NEW", A, sym, sd, p, sA⟩, ⟨"NEW", B, sym, sd, p, sB⟩,
           ⟨"MODIFY", A, sym, sd', p', s'⟩]) (sideBit sd)) p =
        some ((getA (lvOf b (sideBit sd)) p).getD [] ++
          [⟨"NEW", B, sym, sd, p, sB⟩, ⟨"MODIFY", A, sym, sd', p', s'⟩])) ∧
    ((sideBit sd' ≠ sideBit sd ∨ p' ≠ p) →
      getA (lvOf (runEvents b
          [⟨"NEW", A, sym, sd, p, sA⟩, ⟨"NEW", B, sym, sd, p, sB⟩,
           ⟨"MODIFY", A, sym, sd', p', s'⟩]) (sideBit sd')) p' =
        some ((getA (lvOf b (sideBit sd')) p').getD [] ++
          [⟨"MODIFY", A, sym, sd', p', s'⟩]) ∧
      getA (lvOf (runEvents b
          [⟨"NEW", A, sym, sd, p, sA⟩, ⟨"NEW", B, sym, sd, p, sB⟩,
           ⟨"MODIFY", A, sym, sd', p', s'⟩]) (sideBit sd)) p =
        some ((getA (lvOf b (sideBit sd)) p).getD [] ++
          [⟨"NEW", B, sym, sd, p, sB⟩])) := by
  set msgA : Msg := ⟨"NEW", A, sym, sd, p, sA⟩ with hmA
  set msgB : Msg := ⟨"NEW", B, sym, sd, p, sB⟩ with hmB
  set msgM : Msg := ⟨"MODIFY", A, sym, sd', p', s'⟩ with hmM
  set sb := sideBit sd with hsb
  set sb' := sideBit sd' with hsb'
  set q0 := (getA (lvOf b sb) p).getD [] with hq0
  have hq0A : ∀ x ∈ q0, x ≠ msgA := by
    intro x hx he
    rcases hqx : getA (lvOf b sb) p with _ | qx
    · rw [hq0, hqx] at hx
      simp at hx
    · rw [hq0, hqx] at hx
      simp at hx
      have hfacts := ((hwf.2.1 sb).2 (p, qx) (getA_mem hqx)).2.2 x hx
      have := hfacts.2.2
      rw [he, hmA] at this
      rw [hA] at this
      exact Option.noConfusion this
  have hrun : runEvents b [msgA, msgB, msgM] =
      step (step (step b msgA) msgB) msgM := by
    unfold runEvents
    rw [List.foldl_cons, List.foldl_cons, List.foldl_cons, List.foldl_nil]
  -- step 1: NEW A
  have h1 : step b msgA = (handle_new b msgA).book := step_eq_new (by rw [hmA])
  have hAfresh : getA b.orders msgA.order_id = none := by rw [hmA]; exact hA
  rw [handle_new_book_of_fresh hAfresh] at h1
  set b1 := setLv { b with orders := setA b.orders msgA.order_id msgA }
      (sideBit msgA.side)
      (levelAppendMsg (lvOf b (sideBit msgA.side)) msgA.price msgA) with hb1
  have hsbA : sideBit msgA.side = sb := by rw [hmA, hsb]
  have h1o : (step b msgA).orders = setA b.orders A msgA := by
    rw [h1]
    show b1.orders = _
    rw [hb1, orders_setLv, hmA]
  have h1q : getA (lvOf (step b msgA) sb) p =
      some (q0 ++ [msgA]) := by
    rw [h1]
    show getA (lvOf b1 sb) p = _
    rw [hb1, ← hsbA, lvOf_setLv_same]
    have := getA_levelAppendMsg_self (lvOf b (sideBit msgA.side)) msgA.price msgA
    rw [this]
  have h1frame : ∀ (ib : Bool) (pp : ℚ), ib ≠ sb ∨ pp ≠ p →
      getA (lvOf (step b msgA) ib) pp = getA (lvOf b ib) pp := by
    intro ib pp hne
    rw [h1]
    show getA (lvOf b1 ib) pp = _
    rcases hne with hne | hne
    · rw [hb1, lvOf_setLv_other _ (hsbA ▸ hne), lvOf_mk_orders]
    · by_cases hib : ib = sideBit msgA.side
      · subst hib
        rw [hb1, lvOf_setLv_same,
          getA_levelAppendMsg_ne _ _ _ _ (by rw [hmA]; exact hne), lvOf_mk_orders]
      · rw [hb1, lvOf_setLv_other _ hib, lvOf_mk_orders]
  -- step 2: NEW B
  have hBfresh : getA (step b msgA).orders msgB.order_id = none := by
    rw [h1o, hmB]
    show getA (setA b.orders A msgA) B = none
    rw [getA_setA_ne _ _ _ _ (fun he => hAB he.symm), hB]
  have h2 : step (step b msgA) msgB = (handle_new (step b msgA) msgB).book :=
    step_eq_new (by rw [hmB])
  rw [handle_new_book_of_fresh hBfresh] at h2
  have hsbB : sideBit msgB.side = sb := by rw [hmB, hsb]
  have h2o : (step (step b msgA) msgB).orders =
      setA (setA b.orders A msgA) B msgB := by
    rw [h2, orders_setLv, h1o, hmB]
  have h2q : getA (lvOf (step (step b msgA) msgB) sb) p =
      some ((q0 ++ [msgA]) ++ [msgB]) := by
    rw [h2, hsbB, lvOf_setLv_same,
      show msgB.price = p from by rw [hmB],
      getA_levelAppendMsg_self, h1q]
    rfl
  have h2frame : ∀ (ib : Bool) (pp : ℚ), ib ≠ sb ∨ pp ≠ p →
      getA (lvOf (step (step b msgA) msgB) ib) pp = getA (lvOf b ib) pp := by
    intro ib pp hne
    have hstep : getA (lvOf (step (step b msgA) msgB) ib) pp =
        getA (lvOf (step b msgA) ib) pp := by
      rw [h2, hsbB]
      rcases hne with hne | hne
      · rw [lvOf_setLv_other _ hne, lvOf_mk_orders]
      · by_cases hib : ib = sb
        · subst hib
          rw [lvOf_setLv_same, show msgB.price = p from by rw [hmB],
            getA_levelAppendMsg_ne _ _ _ _ hne]
        · rw [lvOf_setLv_other _ hib, lvOf_mk_orders]
    rw [hstep, h1frame ib pp hne]
  -- step 3: MODIFY A (cancel-then-new)
  have hAin : getA (step (step b msgA) msgB).orders msgM.order_id = some msgA := by
    rw [h2o, hmM]
    show getA (setA (setA b.orders A msgA) B msgB) A = some msgA
    rw [getA_setA_ne _ _ _ _ hAB, getA_setA_self]
  have h3 : step (step (step b msgA) msgB) msgM =
      (handle_modify (step (step b msgA) msgB) msgM).book :=
    step_eq_modify (by rw [hmM])
  rw [handle_modify_book_of_some hAin] at h3
  have hq' : eraseFirst ((q0 ++ [msgA]) ++ [msgB]) msgA = q0 ++ [msgB] := by
    rw [List.append_assoc]
    exact eraseFirst_append_of_forall_ne hq0A
  have hrr : (removeResident (step (step b msgA) msgB) msgM.order_id msgA).1 =
      setLv { (step (step b msgA) msgB) with
          orders := popA (step (step b msgA) msgB).orders msgM.order_id } sb
        (setA (lvOf (step (step b msgA) msgB) sb) p (q0 ++ [msgB])) := by
    unfold removeResident removeCore
    rw [getSide_eq, hsbA, show msgA.price = p from by rw [hmA], h2q]
    dsimp only
    rw [if_pos (show msgA ∈ (q0 ++ [msgA]) ++ [msgB] by simp), hq']
    rw [if_neg (show ¬(q0 ++ [msgB] = []) by simp), setSide_eq, hsbA]
  have hRhas : getA (removeResident (step (step b msgA) msgB)
      msgM.order_id msgA).1.orders msgM.order_id = none := by
    rw [hrr, orders_setLv, h2o]
    refine getA_popA_self _ _ ?_
    exact keysA_setA_nodup _ (keysA_setA_nodup _ hwf.1)
  have hRq : getA (lvOf (removeResident (step (step b msgA) msgB)
      msgM.order_id msgA).1 sb) p = some (q0 ++ [msgB]) := by
    rw [hrr, lvOf_setLv_same, getA_setA_self]
  have hRframe : ∀ (ib : Bool) (pp : ℚ), ib ≠ sb ∨ pp ≠ p →
      getA (lvOf (removeResident (step (step b msgA) msgB)
        msgM.order_id msgA).1 ib) pp = getA (lvOf b ib) pp := by
    intro ib pp hne
    have hstep : getA (lvOf (removeResident (step (step b msgA) msgB)
        msgM.order_id msgA).1 ib) pp =
        getA (lvOf (step (step b msgA) msgB) ib) pp := by
      rw [hrr]
      rcases hne with hne | hne
      · rw [lvOf_setLv_other _ hne, lvOf_mk_orders]
      · by_cases hib : ib = sb
        · subst hib
          rw [lvOf_setLv_same, getA_setA_ne _ _ _ _ hne, lvOf_mk_orders]
        · rw [lvOf_setLv_other _ hib, lvOf_mk_orders]
    rw [hstep, h2frame ib pp hne]
  -- the re-insertion of the modified order
  have hsbM : sideBit msgM.side = sb' := by rw [hmM, hsb']
  have hrunq : runEvents b [msgA, msgB, msgM] =
      setLv { (removeResident (step (step b msgA) msgB) msgM.order_id msgA).1 with
          orders := setA (removeResident (step (step b msgA) msgB)
            msgM.order_id msgA).1.orders msgM.order_id msgM }
        (sideBit msgM.side)
        (levelAppendMsg (lvOf (removeResident (step (step b msgA) msgB)
          msgM.order_id msgA).1 (sideBit msgM.side)) msgM.price msgM) := by
    rw [hrun, h3, handle_new_book_of_fresh hRhas]
  constructor
  · rintro ⟨hseq, hpeq⟩
    have hsbeq : sb' = sb := by rw [hsb', hsb, hseq]
    rw [hrunq, hsbM, hsbeq, lvOf_setLv_same,
      show msgM.price = p from by rw [hmM, hpeq],
      getA_levelAppendMsg_self, hRq]
    simp
  · intro hkey
    have hkey' : sb' ≠ sb ∨ p' ≠ p := by
      rcases hkey with hk | hk
      · left; rw [hsb', hsb]; exact hk
      · right; exact hk
    constructor
    · rw [hrunq, hsbM, lvOf_setLv_same,
        show msgM.price = p' from by rw [hmM],
        getA_levelAppendMsg_self]
      have hfr := hRframe sb' p' (by rcases hkey' with hk | hk; · left; exact hk
                                     · right; exact hk)
      rw [hfr]
    · rw [hrunq, hsbM]
      rcases hkey' with hk | hk
      · rw [lvOf_setLv_other _ (fun he => hk he.symm), lvOf_mk_orders, hRq]
      · by_cases hib : sb = sb'
        · rw [← hib, lvOf_setLv_same,
            show msgM.price = p' from by rw [hmM],
            getA_levelAppendMsg_ne _ _ _ _ (fun he => hk he.symm), hRq]
        · rw [lvOf_setLv_other _ hib, lvOf_mk_orders, hRq]

/-- Witness for C1: the spec's own example from the empty book —
`NEW A@100 size 5`, `NEW B@100 size 5`, `MODIFY A size 6` leaves the
100-level FIFO queue as `[B, A]`. -/
theorem C1_witness :
    ("A" : String) ≠ "B" ∧
    getA (lvOf (runEvents (emptyBook "S")
        [⟨"NEW", "A", "S", "bid", 100, 5⟩, ⟨"NEW", "B", "S", "bid", 100, 5⟩,
         ⟨"MODIFY", "A", "S", "bid", 100, 6⟩]) (sideBit "bid")) 100 =
      some ((getA (lvOf (emptyBook "S") (sideBit "bid")) 100).getD [] ++
        [⟨"NEW", "B", "S", "bid", 100, 5⟩, ⟨"MODIFY", "A", "S", "bid", 100, 6⟩]) :=
  ⟨by decide,
    (C1_modify_cancel_then_new (emptyBook "S") "A" "B" "S" "bid" "bid"
        100 100 5 5 6 (wf_empty "S") (by decide) rfl rfl).1 ⟨rfl, rfl⟩⟩

/-! ### C6: best bid / best ask -/

theorem listMax_eq_none_iff (l : List ℚ) : listMax l = none ↔ l = [] := by
  cases l <;> simp [listMax]

theorem listMin_eq_none_iff (l : List ℚ) : listMin l = none ↔ l = [] := by
  cases l <;> simp [listMin]

theorem listMax_mem {l : List ℚ} {x : ℚ} (h : listMax l = some x) : x ∈ l := by
  induction l generalizing x with
  | nil => simp [listMax] at h
  | cons y t ih =>
    rw [listMax] at h
    rcases hm : listMax t with _ | z <;> rw [hm] at h
    · simp at h
      simp [h]
    · simp at h
      rcases max_choice y z with hc | hc <;> rw [← h, hc]
      · simp
      · exact List.mem_cons_of_mem _ (ih hm)

theorem le_listMax {l : List ℚ} {x : ℚ} (h : listMax l = some x) :
    ∀ y ∈ l, y ≤ x := by
  induction l generalizing x with
  | nil => simp
  | cons y t ih =>
    intro z hz
    rw [listMax] at h
    rcases hm : listMax t with _ | w <;> rw [hm] at h <;> simp at h <;>
      rw [List.mem_cons] at hz
    · rcases hz with hz | hz
      · rw [hz, h]
      · rw [(listMax_eq_none_iff t).1 hm] at hz
        simp at hz
    · rcases hz with hz | hz
      · rw [hz, ← h]
        exact le_max_left _ _
      · calc z ≤ w := ih hm z hz
          _ ≤ x := h ▸ le_max_right _ _

theorem listMin_mem {l : List ℚ} {x : ℚ} (h : listMin l = some x) : x ∈ l := by
  induction l generalizing x with
  | nil => simp [listMin] at h
  | cons y t ih =>
    rw [listMin] at h
    rcases hm : listMin t with _ | z <;> rw [hm] at h
    · simp at h
      simp [h]
    · simp at h
      rcases min_choice y z with hc | hc <;> rw [← h, hc]
      · simp
      · exact List.mem_cons_of_mem _ (ih hm)

theorem listMin_le {l : List ℚ} {x : ℚ} (h : listMin l = some x) :
    ∀ y ∈ l, x ≤ y := by
  induction l generalizing x with
  | nil => simp
  | cons y t ih =>
    intro z hz
    rw [listMin] at h
    rcases hm : listMin t with _ | w <;> rw [hm] at h <;> simp at h <;>
      rw [List.mem_cons] at hz
    · rcases hz with hz | hz
      · rw [hz, h]
      · rw [(listMin_eq_none_iff t).1 hm] at hz
        simp at hz
    · rcases hz with hz | hz
      · rw [hz, ← h]
        exact min_le_left _ _
      · calc x ≤ w := h ▸ min_le_right _ _
          _ ≤ z := ih hm z hz

/-- C6 (amended): `get_bba` satisfies `bbaSpec` on every book. -/
theorem C6_bba_contract (b : SSBook) : bbaSpec b := by
  have hb1 : (get_bba b).1 = (listMax (keysA b.bids)).getD 0 := rfl
  have hb2 : (get_bba b).2.1 = (listMin (keysA b.asks)).getD 0 := rfl
  have hb3 : (get_bba b).2.2.1 = if 0 < (get_bba b).1 then
      sumSizes ((getA b.bids (get_bba b).1).getD []) else 0 := rfl
  have hb4 : (get_bba b).2.2.2 = if 0 < (get_bba b).2.1 then
      sumSizes ((getA b.asks (get_bba b).2.1).getD []) else 0 := rfl
  refine ⟨?_, ?_, ?_, ?_, ?_, ?_, ?_, ?_⟩
  · intro h
    rw [hb1, (listMax_eq_none_iff _).2 (by rw [h]; rfl)]
    rfl
  · intro h
    rcases hm : listMax (keysA b.bids) with _ | x
    · have hkeys : keysA b.bids = [] := (listMax_eq_none_iff _).1 hm
      cases hbids : b.bids with
      | nil => exact absurd hbids h
      | cons hd t =>
        rw [hbids] at hkeys
        simp [keysA] at hkeys
    · rw [hb1, hm]
      exact ⟨listMax_mem hm, le_listMax hm⟩
  · intro h
    rw [hb3, if_pos h]
  · intro h
    rw [hb3, if_neg (not_lt.mpr h)]
  · intro h
    rw [hb2, (listMin_eq_none_iff _).2 (by rw [h]; rfl)]
    rfl
  · intro h
    rcases hm : listMin (keysA b.asks) with _ | x
    · have hkeys : keysA b.asks = [] := (listMin_eq_none_iff _).1 hm
      cases hasks : b.asks with
      | nil => exact absurd hasks h
      | cons hd t =>
        rw [hasks] at hkeys
        simp [keysA] at hkeys
    · rw [hb2, hm]
      exact ⟨listMin_mem hm, listMin_le hm⟩
  · intro h
    rw [hb4, if_pos h]
  · intro h
    rw [hb4, if_neg (not_lt.mpr h)]

/-- Counterexample to C6 as stated: a book whose only bid level sits at
price 0 with total size 5.  The maximum bid price is present (0), yet the
reported bid depth is 0, not the size sum 5 of the best level. -/
theorem C6_counterexample :
    keysA (handle_new (emptyBook "S") ⟨"NEW", "A", "S", "bid", 0, 5⟩).book.bids ≠ [] ∧
    (get_bba (handle_new (emptyBook "S") ⟨"NEW", "A", "S", "bid", 0, 5⟩).book).2.2.1 ≠
      sumSizes ((getA (handle_new (emptyBook "S")
        ⟨"NEW", "A", "S", "bid", 0, 5⟩).book.bids
        ((listMax (keysA (handle_new (emptyBook "S")
          ⟨"NEW", "A", "S", "bid", 0, 5⟩).book.bids)).getD 0)).getD []) := by
  refine ⟨by decide, ?_⟩
  have h1 : (get_bba (handle_new (emptyBook "S")
      ⟨"NEW", "A", "S", "bid", 0, 5⟩).book).2.2.1 = 0 := by decide
  have h2 : (getA (handle_new (emptyBook "S")
      ⟨"NEW", "A", "S", "bid", 0, 5⟩).book.bids
      ((listMax (keysA (handle_new (emptyBook "S")
        ⟨"NEW", "A", "S", "bid", 0, 5⟩).book.bids)).getD 0)).getD [] =
      [⟨"NEW", "A", "S", "bid", 0, 5⟩] := by decide
  rw [h1, h2]
  norm_num [sumSizes, List.sum_cons, List.sum_nil]

/-- Witness for C6 on a two-sided sample book. -/
theorem C6_witness :
    bbaSpec (handle_new (handle_new (emptyBook "S")
      ⟨"NEW", "A", "S", "bid", 100, 5⟩).book
      ⟨"NEW", "C", "S", "ask", 101, 7⟩).book :=
  C6_bba_contract _

/-! ### C4: no validation before mutation (OrderBook.apply) -/

/-- C4 evaluation at the failing input: `OrderBook.apply` performs no
price/size/side validation — a NEW event with price −100 is applied to the
book (the order becomes resident under symbol "ABC") and no error is
recorded, contradicting the claim (and the repository's own tests
`test_no_negative_price` / `test_invalid_message_continues_processing`,
which expect a `ValueError` and no mutation). -/
theorem C4_no_validation_mutates :
    (OrderBook.apply ⟨[]⟩ ⟨"NEW", "1", "ABC", "bid", -100, 10⟩).2.2 = 0 ∧
    ((getA (OrderBook.apply ⟨[]⟩
      ⟨"NEW", "1", "ABC", "bid", -100, 10⟩).1.books "ABC").getD
        (emptyBook "ABC")).orders =
      [("1", ⟨"NEW", "1", "ABC", "bid", -100, 10⟩)] := by
  constructor
  · decide
  · decide

/-! ### C10: the aggregate's per-symbol frame property -/

/-- C10: `OrderBook.apply` mutates at most the Symbol Book of the event's
symbol (creating it when absent); the book of every other symbol is
exactly unchanged. -/
theorem C10_apply_frame (st : OBState) (msg : Msg) (s : String)
    (h : s ≠ msg.symbol) :
    getA (OrderBook.apply st msg).1.books s = getA st.books s := by
  unfold OrderBook.apply
  by_cases hc : msg.symbol = "" ∨ msg.type = ""
  · rw [if_pos hc]
  · rw [if_neg hc]
    dsimp only
    rcases hb : getA st.books msg.symbol with _ | bk
    · show getA (setA (setA st.books msg.symbol (emptyBook msg.symbol))
        msg.symbol _) s = getA st.books s
      rw [getA_setA_ne _ _ _ _ h, getA_setA_ne _ _ _ _ h]
    · show getA (setA st.books msg.symbol _) s = getA st.books s
      rw [getA_setA_ne _ _ _ _ h]

/-- Witness for C10: applying an event for "ABC" leaves the "XYZ" book
untouched. -/
theorem C10_witness :
    ("XYZ" : String) ≠ "ABC" ∧
    getA (OrderBook.apply ⟨[("XYZ", emptyBook "XYZ")]⟩
      ⟨"NEW", "1", "ABC", "bid", 100, 10⟩).1.books "XYZ" =
      getA (⟨[("XYZ", emptyBook "XYZ")]⟩ : OBState).books "XYZ" :=
  ⟨by decide, C10_apply_frame ⟨[("XYZ", emptyBook "XYZ")]⟩
    ⟨"NEW", "1", "ABC", "bid", 100, 10⟩ "XYZ" (by decide)⟩

/-! ### `OrderBookReconstructor` (stream.py, MBP level updates) -/

/-- C7: level-update replace semantics of the MBP reconstructor, for any
state whose per-symbol price dicts have unique keys (true of every state
built from Python dicts). -/
theorem C7_level_update (books : Books) (e : LvEvent)
    (hnd : (keysA (getBookD books e.symbol).bids).Nodup ∧
           (keysA (getBookD books e.symbol).asks).Nodup) :
    levelUpdateSpec books e := by
  have hafter : getBookD (applyLevel books e) e.symbol =
      mkBk (getBookD books e.symbol) e := by
    unfold applyLevel getBookD
    rw [getA_setA_self]
    rfl
  constructor
  · intro h0
    have hle : e.size ≤ 0 := le_of_eq h0
    refine ⟨?_, ?_, ?_⟩
    · rw [hafter]
      by_cases hs : e.side = "bid"
      · simp only [mkBk, sideLevels, if_pos hs, if_pos hle]
        exact getA_popA_self _ _ hnd.1
      · simp only [mkBk, sideLevels, if_neg hs, if_pos hle]
        exact getA_popA_self _ _ hnd.2
    · intro habs
      rw [hafter]
      unfold sideLevels at habs
      by_cases hs : e.side = "bid"
      · rw [if_pos hs] at habs
        simp only [mkBk, if_pos hs, if_pos hle,
          popA_of_not_mem ((getA_eq_none_iff _ _).1 habs)]
      · rw [if_neg hs] at habs
        simp only [mkBk, if_neg hs, if_pos hle,
          popA_of_not_mem ((getA_eq_none_iff _ _).1 habs)]
    · have hfix : mkBk (mkBk (getBookD books e.symbol) e) e =
          mkBk (getBookD books e.symbol) e := by
        by_cases hs : e.side = "bid"
        · have h2 : popA (popA (getBookD books e.symbol).bids e.price) e.price =
              popA (getBookD books e.symbol).bids e.price :=
            popA_of_not_mem ((getA_eq_none_iff _ _).1 (getA_popA_self _ _ hnd.1))
          simp only [mkBk, if_pos hs, if_pos hle, h2]
        · have h2 : popA (popA (getBookD books e.symbol).asks e.price) e.price =
              popA (getBookD books e.symbol).asks e.price :=
            popA_of_not_mem ((getA_eq_none_iff _ _).1 (getA_popA_self _ _ hnd.2))
          simp only [mkBk, if_neg hs, if_pos hle, h2]
      show applyLevel (applyLevel books e) e = applyLevel books e
      unfold applyLevel
      rw [show getBookD (setA books e.symbol (mkBk (getBookD books e.symbol) e))
          e.symbol = mkBk (getBookD books e.symbol) e from hafter, hfix, setA_setA]
  · intro hpos
    have hnle : ¬(e.size ≤ 0) := not_le.mpr hpos
    rw [hafter]
    by_cases hs : e.side = "bid"
    · simp only [mkBk, sideLevels, if_pos hs, if_neg hnle]
      exact getA_setA_self _ _ _
    · simp only [mkBk, sideLevels, if_neg hs, if_neg hnle]
      exact getA_setA_self _ _ _

/-- Witness for C7: a size-0 removal and a replacing positive update on a
small concrete reconstructor state. -/
theorem C7_witness :
    ((keysA (getBookD [("TST", ⟨[(100, 10)], []⟩)] "TST").bids).Nodup ∧
     (keysA (getBookD [("TST", ⟨[(100, 10)], []⟩)] "TST").asks).Nodup) ∧
    (levelUpdateSpec [("TST", ⟨[(100, 10)], []⟩)] ⟨"TST", "bid", 100, 0⟩ ∧
     levelUpdateSpec [("TST", ⟨[(100, 10)], []⟩)] ⟨"TST", "bid", 100, 7⟩) :=
  ⟨⟨by decide, by decide⟩,
    C7_level_update _ _ ⟨by decide, by decide⟩,
    C7_level_update _ _ ⟨by decide, by decide⟩⟩

/-! ### `_percentile` (metrics.py lines 46-68) -/

/-- C8: `_percentile` implements floor/ceiling linear interpolation for
every nonempty sorted sample list and every `q ∈ [0, 1]`. -/
theorem C8_percentile (l : List ℚ) (q : ℚ) (hne : l ≠ [])
    (hsort : l.Sorted (· ≤ ·)) (h0 : 0 ≤ q) (h1 : q ≤ 1) :
    percentileSpec l q := by
  have hn1 : 1 ≤ l.length := List.length_pos.mpr hne
  have hk0 : 0 ≤ ((l.length : ℚ) - 1) * q := by
    apply mul_nonneg _ h0
    have : (1 : ℚ) ≤ (l.length : ℚ) := by exact_mod_cast hn1
    linarith
  have htr : pyIntTrunc (((l.length : ℚ) - 1) * q) =
      ⌊((l.length : ℚ) - 1) * q⌋ := if_pos hk0
  have hf0 : 0 ≤ ⌊((l.length : ℚ) - 1) * q⌋ := Int.floor_nonneg.mpr hk0
  have hcast : ((⌊((l.length : ℚ) - 1) * q⌋).toNat : ℤ) =
      ⌊((l.length : ℚ) - 1) * q⌋ := Int.toNat_of_nonneg hf0
  constructor
  · intro hge
    have hge' : (l.length : ℤ) - 1 ≤ pyIntTrunc (((l.length : ℚ) - 1) * q) := by
      rw [htr, ← hcast]
      omega
    unfold percentile
    rw [if_neg hne]
    dsimp only
    rw [if_pos hge']
  · intro hlt
    have hlt' : ¬((l.length : ℤ) - 1 ≤ pyIntTrunc (((l.length : ℚ) - 1) * q)) := by
      rw [htr, ← hcast]
      omega
    have hfn : (⌊((l.length : ℚ) - 1) * q⌋).toNat < l.length := by omega
    have hfn1 : (⌊((l.length : ℚ) - 1) * q⌋).toNat + 1 < l.length := by omega
    rcases ha : l.get? (⌊((l.length : ℚ) - 1) * q⌋).toNat with _ | a
    · rw [List.get?_eq_none] at ha
      omega
    rcases hb : l.get? ((⌊((l.length : ℚ) - 1) * q⌋).toNat + 1) with _ | b
    · rw [List.get?_eq_none] at hb
      omega
    refine ⟨a, b, rfl, rfl, ?_⟩
    unfold percentile
    rw [if_neg hne]
    dsimp only
    rw [if_neg hlt', htr]
    have hga : pyGetIdx l ⌊((l.length : ℚ) - 1) * q⌋ = some a := by
      unfold pyGetIdx
      rw [if_pos hf0, ← ha]
    have hgb : pyGetIdx l (⌊((l.length : ℚ) - 1) * q⌋ + 1) = some b := by
      unfold pyGetIdx
      rw [if_pos (by omega : (0:ℤ) ≤ ⌊((l.length : ℚ) - 1) * q⌋ + 1), ← hb]
      congr 1
      omega
    rw [hga, hgb]
    have hq : ((⌊((l.length : ℚ) - 1) * q⌋.toNat : ℕ) : ℚ) =
        ((⌊((l.length : ℚ) - 1) * q⌋ : ℤ) : ℚ) := by
      exact_mod_cast hcast
    rw [hq]

/-- Witness for C8: the ten-sample regression set; its p50 is the
interpolated 5.5. -/
theorem C8_witness :
    (([1, 2, 3, 4, 5, 6, 7, 8, 9, 10] : List ℚ) ≠ [] ∧
      ([1, 2, 3, 4, 5, 6, 7, 8, 9, 10] : List ℚ).Sorted (· ≤ ·) ∧
      (0 : ℚ) ≤ 1 / 2 ∧ (1 / 2 : ℚ) ≤ 1) ∧
    percentileSpec [1, 2, 3, 4, 5, 6, 7, 8, 9, 10] (1 / 2) ∧
    percentile [1, 2, 3, 4, 5, 6, 7, 8, 9, 10] (1 / 2) = some (11 / 2) := by
  refine ⟨⟨by decide, by decide, by norm_num, by norm_num⟩,
    C8_percentile _ _ (by decide) (by decide) (by norm_num) (by norm_num), ?_⟩
  unfold percentile pyIntTrunc pyGetIdx
  norm_num [List.get?]
  constructor
  · decide
  · show (5 : ℚ) + 1 / 2 * ((6 : ℚ) - (5 : ℚ)) = 11 / 2
    norm_num

/-! ### `TCPStreamServer.broadcast_message` (tcp_server.py lines 160-194) -/

theorem bl_clients (fails : Nat → Bool) (len : Nat) :
    ∀ (ws : List Nat) (st : SrvSt),
    (broadcastLoop fails len st ws).1.clients = st.clients := by
  intro ws
  induction ws with
  | nil => intro st; rfl
  | cons w t ih =>
    intro st
    unfold broadcastLoop sendMessage
    by_cases hw : fails w
    · rw [if_pos hw]
      exact ih _
    · rw [if_neg hw]
      exact ih _

theorem bl_connected (fails : Nat → Bool) (len : Nat) :
    ∀ (ws : List Nat) (st : SrvSt),
    (broadcastLoop fails len st ws).1.connected = st.connected := by
  intro ws
  induction ws with
  | nil => intro st; rfl
  | cons w t ih =>
    intro st
    unfold broadcastLoop sendMessage
    by_cases hw : fails w
    · rw [if_pos hw]
      exact ih _
    · rw [if_neg hw]
      exact ih _

theorem bl_errors (fails : Nat → Bool) (len : Nat) :
    ∀ (ws : List Nat) (st : SrvSt),
    (broadcastLoop fails len st ws).1.errors =
      st.errors + (ws.filter fails).length := by
  intro ws
  induction ws with
  | nil => intro st; simp [broadcastLoop]
  | cons w t ih =>
    intro st
    unfold broadcastLoop sendMessage
    by_cases hw : fails w
    · rw [if_pos hw]
      rw [ih]
      simp [List.filter_cons, hw]
      omega
    · rw [if_neg hw]
      rw [ih]
      simp [List.filter_cons, hw]

theorem bl_sent (fails : Nat → Bool) (len : Nat) :
    ∀ (ws : List Nat) (st : SrvSt),
    (broadcastLoop fails len st ws).1.sent =
      st.sent + (ws.filter (fun w => !fails w)).length := by
  intro ws
  induction ws with
  | nil => intro st; simp [broadcastLoop]
  | cons w t ih =>
    intro st
    unfold broadcastLoop sendMessage
    by_cases hw : fails w
    · rw [if_pos hw]
      rw [ih]
      simp [List.filter_cons, hw]
    · rw [if_neg hw]
      rw [ih]
      simp [List.filter_cons, hw]
      omega

theorem bl_delivered (fails : Nat → Bool) (len : Nat) :
    ∀ (ws : List Nat) (st : SrvSt),
    (broadcastLoop fails len st ws).2.1 =
      ws.filter (fun w => !fails w) := by
  intro ws
  induction ws with
  | nil => intro st; rfl
  | cons w t ih =>
    intro st
    unfold broadcastLoop sendMessage
    by_cases hw : fails w
    · rw [if_pos hw]
      simp [ih, List.filter_cons, hw]
    · rw [if_neg hw]
      simp [ih, List.filter_cons, hw]

theorem bl_disconnected (fails : Nat → Bool) (len : Nat) :
    ∀ (ws : List Nat) (st : SrvSt),
    (broadcastLoop fails len st ws).2.2 = ws.filter fails := by
  intro ws
  induction ws with
  | nil => intro st; rfl
  | cons w t ih =>
    intro st
    unfold broadcastLoop sendMessage
    by_cases hw : fails w
    · rw [if_pos hw]
      simp [ih, List.filter_cons, hw]
    · rw [if_neg hw]
      simp [ih, List.filter_cons, hw]

theorem eraseFirst_eq_filter {l : List Nat} (hnd : l.Nodup) (a : Nat) :
    eraseFirst l a = l.filter (fun x => decide (x ≠ a)) := by
  induction l with
  | nil => rfl
  | cons x t ih =>
    rw [List.nodup_cons] at hnd
    by_cases hx : x = a
    · subst hx
      have hself : t.filter (fun y => decide (y ≠ x)) = t :=
        List.filter_eq_self.mpr (fun y hy => by
          simp only [decide_eq_true_eq]
          exact fun he => hnd.1 (he ▸ hy))
      rw [eraseFirst, if_pos rfl, List.filter_cons]
      rw [if_neg (by simp)]
      exact hself.symm
    · rw [eraseFirst, if_neg hx, List.filter_cons]
      simp [hx, ih hnd.2]

theorem removeLoop_spec :
    ∀ (ds : List Nat) (st : SrvSt), ds.Nodup → st.clients.Nodup →
    (∀ d ∈ ds, d ∈ st.clients) →
    removeLoop st ds =
      { st with clients := st.clients.filter (fun w => decide (w ∉ ds)),
                connected := st.connected - ds.length } := by
  intro ds
  induction ds with
  | nil =>
    intro st _ _ _
    show st = _
    have h1 : st.clients.filter (fun w => decide (w ∉ ([] : List Nat))) =
        st.clients :=
      List.filter_eq_self.mpr (fun y _ => by simp)
    rw [h1]
    obtain ⟨cl, co, er, se, byt⟩ := st
    simp
  | cons d t ih =>
    intro st hnd hcl hmem
    rw [List.nodup_cons] at hnd
    have hdin : d ∈ st.clients := hmem d (List.mem_cons_self d t)
    have hnd2 : (eraseFirst st.clients d).Nodup :=
      List.Nodup.sublist (eraseFirst_sublist _ _) hcl
    have hmem2 : ∀ x ∈ t, x ∈ eraseFirst st.clients d := fun x hx =>
      mem_eraseFirst_of_ne (hmem x (List.mem_cons_of_mem _ hx))
        (fun he => hnd.1 (he ▸ hx))
    have hih := ih { st with clients := eraseFirst st.clients d, connected := st.connected - 1 } hnd.2 hnd2 hmem2
    have hfc : ∀ x ∈ st.clients,
        (decide (x ∉ t) && decide (x ≠ d)) = decide (x ∉ d :: t) := by
      intro x _
      by_cases h1 : x = d <;> by_cases h2 : x ∈ t <;> simp [h1, h2]
    have hcli : (eraseFirst st.clients d).filter (fun w => decide (w ∉ t)) =
        st.clients.filter (fun w => decide (w ∉ d :: t)) := by
      rw [eraseFirst_eq_filter hcl d, List.filter_filter]
      exact List.filter_congr hfc
    unfold removeLoop
    rw [if_pos hdin]
    show removeLoop { st with clients := eraseFirst st.clients d, connected := st.connected - 1 } t = _
    rw [hih]
    dsimp only
    rw [hcli]
    have hco : st.connected - 1 - (t.length : ℤ) =
        st.connected - (((d :: t).length : ℕ) : ℤ) := by
      simp only [List.length_cons]
      push_cast
      ring
    rw [hco]

/-- C9: per-subscriber failure isolation of `broadcast_message` for every
duplicate-free subscriber list. -/
theorem C9_broadcast_isolation (fails : Nat → Bool) (len : Nat) (st : SrvSt)
    (hnd : st.clients.Nodup) : broadcastSpec fails len st := by
  have hdisc := bl_disconnected fails len st.clients st
  have hdel := bl_delivered fails len st.clients st
  have hcl := bl_clients fails len st.clients st
  have hrem := removeLoop_spec (st.clients.filter fails)
      (broadcastLoop fails len st st.clients).1
      (List.Nodup.filter _ hnd)
      (by rw [hcl]; exact hnd)
      (fun d hd => by rw [hcl]; exact List.mem_of_mem_filter hd)
  have hfc : ∀ x ∈ st.clients,
      (decide (x ∉ st.clients.filter fails)) = !fails x := by
    intro x hx
    by_cases h : fails x
    · simp [List.mem_filter, hx, h]
    · simp [List.mem_filter, h]
  unfold broadcastSpec broadcast_message
  dsimp only
  rw [hdisc, hdel, hrem]
  refine ⟨rfl, ?_, ?_, ?_, ?_⟩
  · show (broadcastLoop fails len st st.clients).1.clients.filter _ = _
    rw [hcl, List.filter_congr hfc]
  · show (broadcastLoop fails len st st.clients).1.connected - _ = _
    rw [bl_connected]
  · show (broadcastLoop fails len st st.clients).1.errors = _
    rw [bl_errors]
  · show (broadcastLoop fails len st st.clients).1.sent = _
    rw [bl_sent]

/-- Witness for C9: three subscribers of which the middle one fails; the
other two still receive the message and only the failing one is removed. -/
theorem C9_witness :
    ([1, 2, 3] : List Nat).Nodup ∧
    broadcastSpec (fun w => w == 2) 11 ⟨[1, 2, 3], 3, 0, 0, 0⟩ :=
  ⟨by decide, C9_broadcast_isolation (fun w => w == 2) 11
    ⟨[1, 2, 3], 3, 0, 0, 0⟩ (by decide)⟩

end Challenge
